import Mathlib

/-!
Shallow embedding of the uACPI object runtime core: the tagged,
reference-counted object model (create / ref / unref / free / assign) and the
namespace tree (install / find).  Pointers are natural-number addresses in an
explicit heap; the C value `NULL` is `Option.none`.  Loops that walk a
reference chain are embedded with an explicit fuel argument; a result of
`none` means the execution got stuck (fuel ran out, or a dangling pointer was
dereferenced, which in the C source would be undefined behaviour).
-/

namespace UAcpi

/-- The object type tags appearing in `uacpi_object_type_to_string`. -/
inductive ObjectType where
  | Uninitialized
  | Integer
  | String
  | Buffer
  | Package
  | Reference
  | Method
  | Debug
deriving DecidableEq, Repr

/-- The status values produced by the modelled code paths. -/
inductive Status where
  | Ok
  | OutOfMemory
  | Unimplemented
deriving DecidableEq, Repr

/-- `enum uacpi_assign_behavior`. -/
inductive AssignBehavior where
  | ShallowCopy
  | DeepCopy
deriving DecidableEq, Repr

/-- A separately heap-allocated, separately reference-counted byte buffer
(`uacpi_buffer`), with its intrusive shareable header (refcount + sticky
corruption flag) inlined. -/
structure Buffer where
  refcount : Nat
  bugged : Bool
  size : Nat
  data : List Nat
deriving DecidableEq, Repr

/-- A `uacpi_object`: shareable header, type tag, and the union payload.
The C union is modelled with one field per member; code only ever reads the
field matching the current type tag, as the source does. -/
structure Object where
  refcount : Nat
  bugged : Bool
  ty : ObjectType
  integer : Nat
  buffer : Option Nat
  method : Option Nat
  inner_object : Option Nat
  flags : Nat
deriving DecidableEq, Repr

/-- Pointwise update of a heap map. -/
def upd {β : Type} (f : Nat → β) (a : Nat) (v : β) : Nat → β :=
  fun x => if x = a then v else f x

/-- The mutable store: objects, buffers, and allocated method handles. -/
@[ext]
structure Heap where
  objects : Nat → Option Object
  buffers : Nat → Option Buffer
  methods : Nat → Bool

def Heap.setObj (h : Heap) (a : Nat) (o : Object) : Heap :=
  { h with objects := upd h.objects a (some o) }

def Heap.delObj (h : Heap) (a : Nat) : Heap :=
  { h with objects := upd h.objects a none }

def Heap.setBuf (h : Heap) (a : Nat) (b : Buffer) : Heap :=
  { h with buffers := upd h.buffers a (some b) }

def Heap.delBuf (h : Heap) (a : Nat) : Heap :=
  { h with buffers := upd h.buffers a none }

/-- `uacpi_kernel_free(obj->method)`: release a method handle (freeing the
C `NULL` pointer is a no-op). -/
def Heap.freeMethod (h : Heap) (m : Option Nat) : Heap :=
  match m with
  | none => h
  | some a => { h with methods := upd h.methods a false }

/-- The outcome of the host allocator calls made by one operation: the address
handed out for a `uacpi_buffer` (`none` models `uacpi_kernel_calloc` failure),
whether the byte-region allocation succeeds, and the uninitialized contents
`uacpi_kernel_alloc` leaves in that region. -/
structure AllocPlan where
  bufAddr : Option Nat
  dataOk : Bool
  junk : List Nat
deriving DecidableEq, Repr

/-- Modelled from the spec: the shareable header's corruption check
(`uacpi_bugged_shareable`, whose implementation is outside the excerpt).
An object is treated as corrupt when its sticky bugged flag is set or when
its reference count is 0: a live object always holds at least its creator's
reference, so a count of 0 observed by `ref`/`unref` is a refcount bug
(§4.2 treats unref of a count-0 object as corruption, never decrementing
below zero). -/
def uacpi_bugged_shareable (o : Object) : Bool :=
  o.bugged || decide (o.refcount = 0)

/-- Modelled from the spec: mark a shareable header as bugged — a sticky,
irreversible per-object flag (`uacpi_make_shareable_bugged`). -/
def uacpi_make_shareable_bugged (o : Object) : Object :=
  { o with bugged := true }

/-- Modelled from the spec: `uacpi_shareable_ref` — a bugged object is inert
(no refcount mutation), otherwise the count is incremented by one. -/
def uacpi_shareable_ref (o : Object) : Object :=
  if uacpi_bugged_shareable o then o else { o with refcount := o.refcount + 1 }

/-- Modelled from the spec: `uacpi_shareable_unref` returns the count as it
was prior to the decrement; a bugged object is inert. -/
def uacpi_shareable_unref (o : Object) : Nat × Object :=
  if uacpi_bugged_shareable o then (o.refcount, o)
  else (o.refcount, { o with refcount := o.refcount - 1 })

/-- Modelled from the spec: corruption check for a buffer's shareable
header. -/
def uacpi_bugged_shareable_buf (b : Buffer) : Bool :=
  b.bugged || decide (b.refcount = 0)

/-- Modelled from the spec: `uacpi_shareable_ref` applied to a buffer's
header. -/
def uacpi_shareable_ref_buf (b : Buffer) : Buffer :=
  if uacpi_bugged_shareable_buf b then b else { b with refcount := b.refcount + 1 }

/-- Modelled from the spec: `uacpi_shareable_unref_and_delete_if_last` on a
buffer handle, with `free_buffer` as the deleter.  A `NULL` handle is a no-op,
a bugged buffer is inert, otherwise the count is decremented and the buffer
(bytes and header) is freed when the count reaches zero. -/
def uacpi_shareable_unref_and_delete_if_last (h : Heap) (ob : Option Nat) :
    Option Heap :=
  match ob with
  | none => some h
  | some bA =>
    match h.buffers bA with
    | none => none
    | some b =>
      if uacpi_bugged_shareable_buf b then some h
      else if b.refcount = 1 then some (h.delBuf bA)
      else some (h.setBuf bA { b with refcount := b.refcount - 1 })

/-- `free_object`: releases the payload owned by the object (the backing
buffer for String/Buffer, the method handle for Method) and then the object
storage itself. -/
def free_object (h : Heap) (a : Nat) : Option Heap :=
  match h.objects a with
  | none => none
  | some o =>
    match (if o.ty = .String ∨ o.ty = .Buffer then
             uacpi_shareable_unref_and_delete_if_last h o.buffer
           else some h) with
    | none => none
    | some h1 =>
      let h2 := if o.ty = .Method then h1.freeMethod o.method else h1
      some (h2.delObj a)

/-- `make_chain_bugged`: walk the chain starting at `obj`, marking every link
bugged, following `inner_object` links of Reference-typed objects. -/
def make_chain_bugged : Nat → Heap → Option Nat → Option Heap
  | _, h, none => some h
  | 0, _, some _ => none
  | fuel + 1, h, some a =>
    match h.objects a with
    | none => none
    | some o =>
      let o' := uacpi_make_shareable_bugged o
      let h' := h.setObj a o'
      make_chain_bugged fuel h'
        (if o'.ty = .Reference then o'.inner_object else none)

/-- The loop body of `uacpi_object_ref`: `bfl` is the fuel handed to a
potential `make_chain_bugged` call, `tptr` is `this_obj`. -/
def refLoop (bfl : Nat) : Nat → Heap → Option Nat → Option Nat → Option Heap
  | _, h, _, none => some h
  | 0, _, _, some _ => none
  | fuel + 1, h, tptr, some a =>
    match h.objects a with
    | none => none
    | some o =>
      if uacpi_bugged_shareable o then make_chain_bugged bfl h tptr
      else
        let h1 := h.setObj a (uacpi_shareable_ref o)
        refLoop bfl fuel h1 tptr
          (if o.ty = .Reference then o.inner_object else none)

/-- `uacpi_object_ref`. -/
def uacpi_object_ref (fuel : Nat) (h : Heap) (optr : Option Nat) : Option Heap :=
  refLoop fuel fuel h optr optr

/-- `free_chain`: walk the chain, freeing every link whose refcount is 0. -/
def free_chain : Nat → Heap → Option Nat → Option Heap
  | _, h, none => some h
  | 0, _, some _ => none
  | fuel + 1, h, some a =>
    match h.objects a with
    | none => none
    | some o =>
      let next := if o.ty = .Reference then o.inner_object else none
      match (if o.refcount = 0 then free_object h a else some h) with
      | none => none
      | some h1 => free_chain fuel h1 next

/-- The loop body of `uacpi_object_unref`: carries `parent_refcount` (`pr`)
and `this_obj` (`tptr`); returns the heap paired with `true` when the walk
completed, `false` when it aborted through `make_chain_bugged`. -/
def unrefLoop (bfl : Nat) :
    Nat → Heap → Option Nat → Nat → Option Nat → Option (Heap × Bool)
  | _, h, _, _, none => some (h, true)
  | 0, _, _, _, some _ => none
  | fuel + 1, h, tptr, pr, some a =>
    match h.objects a with
    | none => none
    | some o =>
      if uacpi_bugged_shareable o then
        (make_chain_bugged bfl h tptr).map (fun hb => (hb, false))
      else if o.refcount < pr then
        (make_chain_bugged bfl h tptr).map (fun hb => (hb, false))
      else
        let pr' := (uacpi_shareable_unref o).1
        let h1 := h.setObj a (uacpi_shareable_unref o).2
        unrefLoop bfl fuel h1 tptr pr'
          (if o.ty = .Reference then o.inner_object else none)

/-- `uacpi_object_unref`: `NULL` is a no-op; otherwise walk the chain with the
consistency check, and if the walk completed and `this_obj`'s count reached
zero, run `free_chain` from `this_obj`. -/
def uacpi_object_unref (fuel : Nat) (h : Heap) (optr : Option Nat) :
    Option Heap :=
  match optr with
  | none => some h
  | some a =>
    match h.objects a with
    | none => none
    | some o =>
      match unrefLoop fuel fuel h (some a) o.refcount (some a) with
      | none => none
      | some (h1, false) => some h1
      | some (h1, true) =>
        match h1.objects a with
        | none => none
        | some o1 =>
          if o1.refcount = 0 then free_chain fuel h1 (some a) else some h1

/-- `buffer_alloc`: calloc a `uacpi_buffer`, init its shareable header, and
for a nonzero initial size allocate the (uninitialized) byte region, freeing
the buffer again if that fails; on success store the buffer into
`obj->buffer`. -/
def buffer_alloc (h : Heap) (objA : Nat) (initialSize : Nat)
    (plan : AllocPlan) : Option (Heap × Bool) :=
  match plan.bufAddr with
  | none => some (h, false)
  | some bA =>
    let h1 := h.setBuf bA { refcount := 1, bugged := false, size := 0, data := [] }
    if initialSize = 0 then
      match h1.objects objA with
      | none => none
      | some o => some (h1.setObj objA { o with buffer := some bA }, true)
    else
      if plan.dataOk then
        let bytes := plan.junk.take initialSize ++
          List.replicate (initialSize - plan.junk.length) 0
        let h2 := h1.setBuf bA
          { refcount := 1, bugged := false, size := initialSize, data := bytes }
        match h2.objects objA with
        | none => none
        | some o => some (h2.setObj objA { o with buffer := some bA }, true)
      else
        some (h1.delBuf bA, false)

/-- `uacpi_create_object`: calloc a zeroed object, init its shareable header
(refcount 1), set the type tag, and for String/Buffer allocate a zero-length
backing buffer, releasing the object again if that sub-allocation fails.
`objAddr = none` models failure of the object's own calloc. -/
def uacpi_create_object (h : Heap) (ty : ObjectType) (objAddr : Option Nat)
    (plan : AllocPlan) : Option (Heap × Option Nat) :=
  match objAddr with
  | none => some (h, none)
  | some a =>
    let o : Object :=
      { refcount := 1, bugged := false, ty := ty, integer := 0,
        buffer := none, method := none, inner_object := none, flags := 0 }
    let h1 := h.setObj a o
    if ty = .String ∨ ty = .Buffer then
      match buffer_alloc h1 a 0 plan with
      | none => none
      | some (h2, true) => some (h2, some a)
      | some (h2, false) => some (h2.delObj a, none)
    else
      some (h1, some a)

/-- Modelled from the spec: `uacpi_memcpy_zerout(dst, src, dst_size,
src_size)` (implementation outside the excerpt, §4.3): copy
`min(dst_size, src_size)` bytes from the source and zero-fill the rest of the
destination, so the result is always exactly `dst_size` bytes wide. -/
def uacpi_memcpy_zerout (src : List Nat) (dstSize srcSize : Nat) : List Nat :=
  src.take (min dstSize srcSize) ++
    List.replicate (dstSize - min dstSize srcSize) 0

/-- `buffer_alloc_and_store`: allocate a buffer of `bufSize` bytes for `obj`
and store the source bytes into it with zero-padding; out-of-memory on
allocation failure. -/
def buffer_alloc_and_store (h : Heap) (objA : Nat) (bufSize : Nat)
    (srcBytes : List Nat) (srcSize : Nat) (plan : AllocPlan) :
    Option (Heap × Status) :=
  match buffer_alloc h objA bufSize plan with
  | none => none
  | some (h1, false) => some (h1, .OutOfMemory)
  | some (h1, true) =>
    match h1.objects objA with
    | none => none
    | some o =>
      match o.buffer with
      | none => none
      | some bA =>
        match h1.buffers bA with
        | none => none
        | some b =>
          some (h1.setBuf bA
            { b with data := uacpi_memcpy_zerout srcBytes bufSize srcSize },
            .Ok)

/-- `assign_buffer`: ShallowCopy aliases the source's buffer (bumping its
refcount); DeepCopy allocates a new buffer of the source's size and copies
its bytes. -/
def assign_buffer (h : Heap) (dstA srcA : Nat) (behavior : AssignBehavior)
    (plan : AllocPlan) : Option (Heap × Status) :=
  match h.objects dstA, h.objects srcA with
  | some d, some s =>
    if behavior = .ShallowCopy then
      match s.buffer with
      | none => none
      | some bA =>
        match h.buffers bA with
        | none => none
        | some b =>
          let h1 := h.setObj dstA { d with buffer := some bA }
          some (h1.setBuf bA (uacpi_shareable_ref_buf b), .Ok)
    else
      match s.buffer with
      | none => none
      | some sbA =>
        match h.buffers sbA with
        | none => none
        | some sb => buffer_alloc_and_store h dstA sb.size sb.data sb.size plan
  | _, _ => none

/-- The `while (refs_to_remove--) uacpi_object_unref(dst->inner_object);`
loop of `uacpi_object_assign`; `dst->inner_object` is re-read from the heap
on every iteration, as in the source. -/
def unrefDstInnerTimes (fuel : Nat) (h : Heap) (dstA : Nat) :
    Nat → Option Heap
  | 0 => some h
  | n + 1 =>
    match h.objects dstA with
    | none => none
    | some d =>
      match uacpi_object_unref fuel h d.inner_object with
      | none => none
      | some h1 => unrefDstInnerTimes fuel h1 dstA n

/-- The `while (refs_to_add-- > 0) uacpi_object_ref(dst->inner_object);`
loop of `uacpi_object_assign`. -/
def refDstInnerTimes (fuel : Nat) (h : Heap) (dstA : Nat) :
    Nat → Option Heap
  | 0 => some h
  | n + 1 =>
    match h.objects dstA with
    | none => none
    | some d =>
      match uacpi_object_ref fuel h d.inner_object with
      | none => none
      | some h1 => refDstInnerTimes fuel h1 dstA n

/-- `uacpi_object_assign`: release dst's previous payload (step 1), install
src's payload by src's type tag (step 2), and on success update dst's type
tag (step 3). -/
def uacpi_object_assign (fuel : Nat) (h : Heap) (dstA srcA : Nat)
    (behavior : AssignBehavior) (plan : AllocPlan) : Option (Heap × Status) :=
  match h.objects dstA with
  | none => none
  | some d =>
    match (if d.ty = .Reference then
             unrefDstInnerTimes fuel h dstA d.refcount
           else if d.ty = .String ∨ d.ty = .Buffer then
             uacpi_shareable_unref_and_delete_if_last h d.buffer
           else some h) with
    | none => none
    | some h1 =>
      match h1.objects srcA with
      | none => none
      | some s =>
        match (match s.ty with
               | .Uninitialized => some (h1, Status.Ok)
               | .Debug => some (h1, Status.Ok)
               | .Buffer => assign_buffer h1 dstA srcA behavior plan
               | .String => assign_buffer h1 dstA srcA behavior plan
               | .Integer =>
                 match h1.objects dstA with
                 | none => none
                 | some d1 =>
                   some (h1.setObj dstA { d1 with integer := s.integer },
                     Status.Ok)
               | .Method =>
                 match h1.objects dstA with
                 | none => none
                 | some d1 =>
                   some (h1.setObj dstA { d1 with method := s.method },
                     Status.Ok)
               | .Reference =>
                 match h1.objects dstA with
                 | none => none
                 | some d1 =>
                   let h2 := h1.setObj dstA
                     { d1 with flags := s.flags,
                               inner_object := s.inner_object }
                   match refDstInnerTimes fuel h2 dstA d1.refcount with
                   | none => none
                   | some h3 => some (h3, Status.Ok)
               | .Package => some (h1, Status.Unimplemented)) with
        | none => none
        | some (h2, st) =>
          if st = .Ok then
            match h2.objects dstA, h2.objects srcA with
            | some d2, some s2 =>
              some (h2.setObj dstA { d2 with ty := s2.ty }, st)
            | _, _ => none
          else some (h2, st)

/-- A namespace node: fixed-width name plus parent / first-child / next-sibling
links. -/
structure NamespaceNode where
  name : Nat
  parent : Option Nat
  child : Option Nat
  next : Option Nat
deriving DecidableEq, Repr

/-- The namespace store: nodes addressed by naturals, plus the address of the
static root node `g_root`. -/
@[ext]
structure NsHeap where
  nodes : Nat → Option NamespaceNode
  rootAddr : Nat

def NsHeap.setNode (h : NsHeap) (a : Nat) (n : NamespaceNode) : NsHeap :=
  { h with nodes := upd h.nodes a (some n) }

/-- The `if (parent == UACPI_NULL) parent = &g_root;` idiom shared by
install and find. -/
def resolveParent (h : NsHeap) (parent : Option Nat) : Nat :=
  match parent with
  | none => h.rootAddr
  | some p => p

/-- `uacpi_node_install`: push `node` onto the head of the parent's child
list (the root is used when `parent` is `NULL`); always returns OK. -/
def uacpi_node_install (h : NsHeap) (parent : Option Nat) (nodeA : Nat) :
    Option (NsHeap × Status) :=
  let pA := resolveParent h parent
  match h.nodes pA with
  | none => none
  | some pn =>
    let prev := pn.child
    let h1 := h.setNode pA { pn with child := some nodeA }
    match h1.nodes nodeA with
    | none => none
    | some nn =>
      some (h1.setNode nodeA { nn with parent := some pA, next := prev },
        Status.Ok)

/-- The sibling-scan loop of `uacpi_namespace_node_find`; the inner `Option`
is the returned node pointer (`none` = not found). -/
def findLoop : Nat → NsHeap → Option Nat → Nat → Option (Option Nat)
  | _, _, none, _ => some none
  | 0, _, some _, _ => none
  | fuel + 1, h, some a, nm =>
    match h.nodes a with
    | none => none
    | some n =>
      if n.name = nm then some (some a) else findLoop fuel h n.next nm

/-- `uacpi_namespace_node_find`: linear scan of the parent's direct child
list, first name match wins. -/
def uacpi_namespace_node_find (fuel : Nat) (h : NsHeap) (parent : Option Nat)
    (nm : Nat) : Option (Option Nat) :=
  let pA := resolveParent h parent
  match h.nodes pA with
  | none => none
  | some pn => findLoop fuel h pn.child nm

/-- The refcount stored at an address (0 for a missing object); used to state
chain-shape hypotheses. -/
def rc (h : Heap) (a : Nat) : Nat :=
  match h.objects a with
  | some o => o.refcount
  | none => 0

/-- `chainOk h as`: `as` lists the addresses of a reference chain — every
link but the last is a Reference whose `inner_object` is the next address,
and the last is a non-Reference terminal. -/
def chainOk (h : Heap) : List Nat → Bool
  | [] => false
  | [a] =>
    match h.objects a with
    | some o => !(decide (o.ty = ObjectType.Reference))
    | none => false
  | a :: b :: rest =>
    match h.objects a with
    | some o =>
      decide (o.ty = ObjectType.Reference) &&
        decide (o.inner_object = some b) && chainOk h (b :: rest)
    | none => false

/-- Every chain member exists and passes the shareable corruption check. -/
def chainClean (h : Heap) (as : List Nat) : Bool :=
  as.all fun a =>
    match h.objects a with
    | some o => !(uacpi_bugged_shareable o)
    | none => false

/-- Refcounts are nondecreasing along the chain (each inner link holds at
least as many references as the link pointing into it). -/
def chainMono (h : Heap) : List Nat → Bool
  | [] => true
  | [_] => true
  | a :: b :: rest => decide (rc h a ≤ rc h b) && chainMono h (b :: rest)

/-- Apply `f` to every listed object's entry; the shape shared by the
chain-walk result descriptions below. -/
def mapObjs (h : Heap) (as : List Nat) (f : Object → Object) : Heap :=
  { h with objects := fun x =>
      if x ∈ as then (h.objects x).map f else h.objects x }

/-- Increment the refcount of every listed object. -/
def bumpObjs (h : Heap) (as : List Nat) : Heap :=
  mapObjs h as fun o => { o with refcount := o.refcount + 1 }

/-- Decrement the refcount of every listed object. -/
def decObjs (h : Heap) (as : List Nat) : Heap :=
  mapObjs h as fun o => { o with refcount := o.refcount - 1 }

/-- Increment the refcount of every listed object by `n`. -/
def bumpObjsN (h : Heap) (as : List Nat) (n : Nat) : Heap :=
  mapObjs h as fun o => { o with refcount := o.refcount + n }

/-- Decrement the refcount of every listed object by `n`. -/
def decObjsN (h : Heap) (as : List Nat) (n : Nat) : Heap :=
  mapObjs h as fun o => { o with refcount := o.refcount - n }

/-- Set the bugged flag of every listed object. -/
def bugObjs (h : Heap) (as : List Nat) : Heap :=
  mapObjs h as fun o => { o with bugged := true }

/-- Pure mirror of the unref walk's control decisions over the original heap:
returns how many links get decremented before the walk ends, and whether it
completed (`true`) or aborted into `make_chain_bugged` (`false`). -/
def walkSpec (h : Heap) : Nat → List Nat → Nat × Bool
  | _, [] => (0, true)
  | pr, a :: rest =>
    match h.objects a with
    | none => (0, false)
    | some o =>
      if uacpi_bugged_shareable o then (0, false)
      else if o.refcount < pr then (0, false)
      else
        let kf := walkSpec h o.refcount rest
        (kf.1 + 1, kf.2)

/-- Decidable form of the backing-store well-formedness needed before a chain
walk may free String/Buffer objects: every chain member that would be freed
(count 1) and owns a buffer pointer actually has that buffer in the heap. -/
def chainBufWf (h : Heap) (as : List Nat) : Bool :=
  as.all fun x =>
    match h.objects x with
    | none => true
    | some o =>
      if o.refcount = 1 ∧ (o.ty = .String ∨ o.ty = .Buffer) then
        match o.buffer with
        | none => true
        | some bA => (h.buffers bA).isSome
      else true

/-- Some chain member has its sticky bugged flag set. -/
def chainHasBugged (h : Heap) (as : List Nat) : Bool :=
  as.any fun x =>
    match h.objects x with
    | some o => o.bugged
    | none => false

/-- A Reference-typed test object with the given refcount and inner pointer. -/
def objRef (n inner : Nat) : Object :=
  ⟨n, false, .Reference, 0, none, none, some inner, 0⟩

/-- An Integer-typed test object. -/
def objInt (n : Nat) : Object :=
  ⟨n, false, .Integer, 7, none, none, none, 0⟩

/-- A bugged Integer-typed test object. -/
def objIntB (n : Nat) : Object :=
  ⟨n, true, .Integer, 7, none, none, none, 0⟩

/-- A String-typed test object pointing at buffer `bA`. -/
def objStr (n bA : Nat) : Object :=
  ⟨n, false, .String, 0, some bA, none, none, 0⟩

/-- A Method-typed test object holding method handle `m`. -/
def objMeth (n m : Nat) : Object :=
  ⟨n, false, .Method, 0, none, some m, none, 0⟩

/-- An Uninitialized test object. -/
def objUninit : Object :=
  ⟨1, false, .Uninitialized, 0, none, none, none, 0⟩

/-- A Package-typed test object (the tag `uacpi_object_assign` does not
support). -/
def objPack (n : Nat) : Object :=
  ⟨n, false, .Package, 0, none, none, none, 0⟩

/-- A small object heap builder from an association list. -/
def heapOf (objs : List (Nat × Object)) (bufs : List (Nat × Buffer))
    (meths : List Nat) : Heap :=
  { objects := fun x => (objs.find? fun p => p.1 == x).map Prod.snd,
    buffers := fun x => (bufs.find? fun p => p.1 == x).map Prod.snd,
    methods := fun x => meths.contains x }

/-- Counterexample heap for C1: a depth-1 chain whose outer refcount (5)
exceeds the inner refcount (3). -/
def hC1 : Heap := heapOf [(1, objRef 5 2), (2, objInt 3)] [] []

/-- Witness heap for C1: a depth-1 chain with nondecreasing counts 2 ≤ 3. -/
def hC1w : Heap := heapOf [(1, objRef 2 2), (2, objInt 3)] [] []

/-- Witness heap for C2: a Reference (count 1) to a String (count 1) whose
backing buffer (count 1) must be freed along with both objects. -/
def hC2w : Heap :=
  heapOf [(1, objRef 1 2), (2, objStr 1 10)]
    [(10, ⟨1, false, 2, [7, 8]⟩)] []

/-- Witness heap for C3: a clean Reference whose inner object is bugged. -/
def hC3w : Heap := heapOf [(1, objRef 2 2), (2, objIntB 3)] [] []

/-- An empty heap. -/
def hEmpty : Heap :=
  { objects := fun _ => none, buffers := fun _ => none, methods := fun _ => false }

/-- Witness namespace heap for C6: a root node at 0 and two unlinked nodes
5 and 6 both named 77. -/
def nsW : NsHeap :=
  { nodes := fun x =>
      if x = 0 then some ⟨0, none, none, none⟩
      else if x = 5 then some ⟨77, none, none, none⟩
      else if x = 6 then some ⟨77, none, none, none⟩
      else none,
    rootAddr := 0 }

/-- Witness heap for C5: dst (1) is a Reference with count 3 to old (3,
count 5); src (2) is a Reference to T (4, count 1). -/
def hC5w : Heap :=
  heapOf [(1, objRef 3 3), (2, objRef 1 4), (3, objInt 5), (4, objInt 1)] [] []

/-- Witness heap for C9: dst (1) is an Integer, src (2) is a Package. -/
def hC9w : Heap := heapOf [(1, objInt 2), (2, objPack 1)] [] []

/-- `h` evolves into `h'` when every surviving object keeps its type tag and
payload fields — only refcounts and bugged flags change, and objects may be
freed.  All the release paths of the object model satisfy this. -/
def ObjEvolves (h h' : Heap) : Prop :=
  ∀ x o', h'.objects x = some o' → ∃ o, h.objects x = some o ∧
    o'.ty = o.ty ∧ o'.integer = o.integer ∧ o'.buffer = o.buffer ∧
    o'.method = o.method ∧ o'.inner_object = o.inner_object ∧
    o'.flags = o.flags

/-- Counterexample heap for C4: dst (1) Uninitialized, src (2) a String with
a zero-length buffer at 10. -/
def hC4 : Heap := heapOf [(1, objUninit), (2, objStr 1 10)]
  [(10, ⟨1, false, 0, []⟩)] []

/-- Witness heap for C4: dst (1) an Integer, src (2) a Package. -/
def hC4w : Heap := heapOf [(1, objInt 2), (2, objPack 1)] [] []

/-- Counterexample heap for C8: dst (1) and src (2) are Strings already
sharing the same backing buffer 10 (refcount 2). -/
def hC8 : Heap := heapOf [(1, objStr 1 10), (2, objStr 1 10)]
  [(10, ⟨2, false, 2, [7, 8]⟩)] []

/-- Witness heap for C8: dst (1) a String with its own buffer 20, src (2)
a String with buffer 10 holding bytes [7, 8]. -/
def hC8w : Heap := heapOf [(1, objStr 1 20), (2, objStr 1 10)]
  [(20, ⟨1, false, 0, []⟩), (10, ⟨1, false, 2, [7, 8]⟩)] []

@[simp]
theorem upd_eval {β : Type} (f : Nat → β) (a : Nat) (v : β) (x : Nat) :
    upd f a v x = if x = a then v else f x := rfl

@[simp]
theorem setObj_objects (h : Heap) (a : Nat) (o : Object) (x : Nat) :
    (h.setObj a o).objects x = if x = a then some o else h.objects x := rfl

@[simp]
theorem setObj_buffers (h : Heap) (a : Nat) (o : Object) :
    (h.setObj a o).buffers = h.buffers := rfl

@[simp]
theorem setObj_methods (h : Heap) (a : Nat) (o : Object) :
    (h.setObj a o).methods = h.methods := rfl

@[simp]
theorem delObj_objects (h : Heap) (a : Nat) (x : Nat) :
    (h.delObj a).objects x = if x = a then none else h.objects x := rfl

@[simp]
theorem delObj_buffers (h : Heap) (a : Nat) :
    (h.delObj a).buffers = h.buffers := rfl

@[simp]
theorem delObj_methods (h : Heap) (a : Nat) :
    (h.delObj a).methods = h.methods := rfl

@[simp]
theorem setBuf_objects (h : Heap) (a : Nat) (b : Buffer) :
    (h.setBuf a b).objects = h.objects := rfl

@[simp]
theorem setBuf_buffers (h : Heap) (a : Nat) (b : Buffer) (x : Nat) :
    (h.setBuf a b).buffers x = if x = a then some b else h.buffers x := rfl

@[simp]
theorem setBuf_methods (h : Heap) (a : Nat) (b : Buffer) :
    (h.setBuf a b).methods = h.methods := rfl

@[simp]
theorem delBuf_objects (h : Heap) (a : Nat) :
    (h.delBuf a).objects = h.objects := rfl

@[simp]
theorem delBuf_buffers (h : Heap) (a : Nat) (x : Nat) :
    (h.delBuf a).buffers x = if x = a then none else h.buffers x := rfl

@[simp]
theorem delBuf_methods (h : Heap) (a : Nat) :
    (h.delBuf a).methods = h.methods := rfl

@[simp]
theorem freeMethod_objects (h : Heap) (m : Option Nat) :
    (h.freeMethod m).objects = h.objects := by
  cases m <;> rfl

@[simp]
theorem freeMethod_buffers (h : Heap) (m : Option Nat) :
    (h.freeMethod m).buffers = h.buffers := by
  cases m <;> rfl

@[simp]
theorem mapObjs_objects (h : Heap) (as : List Nat) (f : Object → Object)
    (x : Nat) :
    (mapObjs h as f).objects x =
      if x ∈ as then (h.objects x).map f else h.objects x := rfl

@[simp]
theorem mapObjs_buffers (h : Heap) (as : List Nat) (f : Object → Object) :
    (mapObjs h as f).buffers = h.buffers := rfl

@[simp]
theorem mapObjs_methods (h : Heap) (as : List Nat) (f : Object → Object) :
    (mapObjs h as f).methods = h.methods := rfl

theorem mapObjs_nil (h : Heap) (f : Object → Object) : mapObjs h [] f = h := by
  ext x <;> simp [mapObjs]

theorem mapObjs_cons (h : Heap) (a : Nat) (rest : List Nat)
    (f : Object → Object) (o : Object) (ho : h.objects a = some o)
    (hnd : a ∉ rest) :
    mapObjs h (a :: rest) f = mapObjs (h.setObj a (f o)) rest f := by
  ext x
  · by_cases hx : x = a
    · subst hx
      simp [mapObjs, ho, hnd]
    · by_cases hr : x ∈ rest <;> simp [mapObjs, hx, hr]
  · rfl
  · rfl

theorem chainOk_congr (h1 h2 : Heap) (as : List Nat)
    (hx : ∀ a ∈ as, h1.objects a = h2.objects a) :
    chainOk h1 as = chainOk h2 as := by
  induction as with
  | nil => rfl
  | cons a rest ih =>
    cases rest with
    | nil =>
      have := hx a (by simp)
      simp [chainOk, this]
    | cons b rest' =>
      have ha := hx a (by simp)
      have ih' := ih fun x hx' => hx x (by simp [hx'])
      simp only [chainOk, ha, ih']

theorem chainClean_congr (h1 h2 : Heap) (as : List Nat)
    (hx : ∀ a ∈ as, h1.objects a = h2.objects a) :
    chainClean h1 as = chainClean h2 as := by
  induction as with
  | nil => rfl
  | cons a rest ih =>
    have ha := hx a (by simp)
    have ih' := ih fun x hx' => hx x (by simp [hx'])
    simp only [chainClean, List.all_cons] at *
    rw [ha, ih']

theorem rc_congr (h1 h2 : Heap) (a : Nat)
    (hx : h1.objects a = h2.objects a) : rc h1 a = rc h2 a := by
  simp only [rc, hx]

theorem chainMono_congr (h1 h2 : Heap) (as : List Nat)
    (hx : ∀ a ∈ as, h1.objects a = h2.objects a) :
    chainMono h1 as = chainMono h2 as := by
  induction as with
  | nil => rfl
  | cons a rest ih =>
    cases rest with
    | nil => rfl
    | cons b rest' =>
      have ha := rc_congr h1 h2 a (hx a (by simp))
      have hb := rc_congr h1 h2 b (hx b (by simp))
      have ih' := ih fun x hx' => hx x (by simp [hx'])
      simp only [chainMono, ha, hb, ih']

theorem walkSpec_congr (h1 h2 : Heap) (pr : Nat) (as : List Nat)
    (hx : ∀ a ∈ as, h1.objects a = h2.objects a) :
    walkSpec h1 pr as = walkSpec h2 pr as := by
  induction as generalizing pr with
  | nil => rfl
  | cons a rest ih =>
    have ha := hx a (by simp)
    have ih' := fun pr' => ih pr' fun x hx' => hx x (by simp [hx'])
    simp only [walkSpec, ha]
    cases h2.objects a with
    | none => rfl
    | some o => simp only [ih']

theorem chainOk_mapObjs (h : Heap) (bs as : List Nat) (f : Object → Object)
    (hty : ∀ o, (f o).ty = o.ty)
    (hin : ∀ o, (f o).inner_object = o.inner_object) :
    chainOk (mapObjs h bs f) as = chainOk h as := by
  induction as with
  | nil => rfl
  | cons a rest ih =>
    cases rest with
    | nil =>
      by_cases hb : a ∈ bs <;>
        cases ho : h.objects a <;>
          simp [chainOk, hb, ho, hty]
    | cons b rest' =>
      by_cases hb : a ∈ bs <;>
        cases ho : h.objects a <;>
          simp [chainOk, hb, ho, hty, hin, ih]

theorem chainOk_mem_exists (h : Heap) (as : List Nat)
    (hc : chainOk h as = true) : ∀ a ∈ as, ∃ o, h.objects a = some o := by
  induction as with
  | nil => simp
  | cons a rest ih =>
    cases rest with
    | nil =>
      intro x hx
      simp only [List.mem_singleton] at hx
      subst hx
      cases ho : h.objects x with
      | none => simp [chainOk, ho] at hc
      | some o => exact ⟨o, rfl⟩
    | cons b rest' =>
      intro x hx
      cases ho : h.objects a with
      | none => simp [chainOk, ho] at hc
      | some o =>
        simp only [chainOk, ho, Bool.and_eq_true, decide_eq_true_eq] at hc
        rcases List.mem_cons.mp hx with hx | hx
        · exact hx ▸ ⟨o, ho⟩
        · exact ih hc.2 x hx

theorem chainOk_cons_cons (h : Heap) (a b : Nat) (rest : List Nat) (o : Object)
    (ho : h.objects a = some o) (hc : chainOk h (a :: b :: rest) = true) :
    o.ty = .Reference ∧ o.inner_object = some b ∧ chainOk h (b :: rest) = true := by
  simp only [chainOk, ho, Bool.and_eq_true, decide_eq_true_eq] at hc
  exact ⟨hc.1.1, hc.1.2, hc.2⟩

theorem chainOk_single (h : Heap) (a : Nat) (o : Object)
    (ho : h.objects a = some o) (hc : chainOk h [a] = true) :
    o.ty ≠ .Reference := by
  simp only [chainOk, ho, Bool.not_eq_true', decide_eq_false_iff_not] at hc
  exact hc

theorem chainClean_cons (h : Heap) (a : Nat) (rest : List Nat) (o : Object)
    (ho : h.objects a = some o) (hc : chainClean h (a :: rest) = true) :
    uacpi_bugged_shareable o = false ∧ chainClean h rest = true := by
  simp only [chainClean, List.all_cons, ho, Bool.and_eq_true,
    Bool.not_eq_true'] at hc ⊢
  exact hc

theorem make_chain_bugged_chain (rest : List Nat) :
    ∀ (a : Nat) (h : Heap) (fuel : Nat),
    chainOk h (a :: rest) = true → (a :: rest).Nodup →
    (a :: rest).length ≤ fuel →
    make_chain_bugged fuel h (some a) = some (bugObjs h (a :: rest)) := by
  induction rest with
  | nil =>
    intro a h fuel hc hnd hf
    obtain ⟨o, ho⟩ := chainOk_mem_exists h [a] hc a (by simp)
    have hty := chainOk_single h a o ho hc
    cases fuel with
    | zero => simp at hf
    | succ f =>
      simp only [make_chain_bugged, ho, uacpi_make_shareable_bugged]
      rw [if_neg (by simpa using hty)]
      simp only [make_chain_bugged]
      refine congrArg some ?_
      ext x
      · by_cases hx : x = a <;> simp [bugObjs, hx, ho, uacpi_make_shareable_bugged]
      · rfl
      · rfl
  | cons b rest' ih =>
    intro a h fuel hc hnd hf
    obtain ⟨o, ho⟩ := chainOk_mem_exists h _ hc a (by simp)
    obtain ⟨hty, hin, hc'⟩ := chainOk_cons_cons h a b rest' o ho hc
    have hna : a ∉ b :: rest' := (List.nodup_cons.mp hnd).1
    cases fuel with
    | zero => simp at hf
    | succ f =>
      simp only [make_chain_bugged, ho, uacpi_make_shareable_bugged]
      rw [if_pos (show ({ o with bugged := true } : Object).ty = .Reference from hty)]
      have hmem : ∀ x ∈ b :: rest',
          (h.setObj a { o with bugged := true }).objects x = h.objects x := by
        intro x hx
        have hxa : x ≠ a := fun hh => hna (hh ▸ hx)
        simp [hxa]
      have hc2 := (chainOk_congr _ h _ hmem).trans hc'
      have hrun := ih b (h.setObj a { o with bugged := true }) f hc2
        (List.nodup_cons.mp hnd).2 (by simpa using hf)
      rw [← hin] at hrun
      rw [show ({ o with bugged := true } : Object).inner_object = o.inner_object from rfl,
        hrun]
      refine congrArg some ?_
      rw [show bugObjs h (a :: b :: rest') =
          bugObjs (h.setObj a { o with bugged := true }) (b :: rest') from
        mapObjs_cons h a (b :: rest') _ o ho hna]

theorem refLoop_clean (rest : List Nat) :
    ∀ (a : Nat) (h : Heap) (fuel bfl : Nat) (tptr : Option Nat),
    chainOk h (a :: rest) = true → chainClean h (a :: rest) = true →
    (a :: rest).Nodup → (a :: rest).length ≤ fuel →
    refLoop bfl fuel h tptr (some a) = some (bumpObjs h (a :: rest)) := by
  induction rest with
  | nil =>
    intro a h fuel bfl tptr hc hcl hnd hf
    obtain ⟨o, ho⟩ := chainOk_mem_exists h [a] hc a (by simp)
    have hty := chainOk_single h a o ho hc
    have hb := (chainClean_cons h a [] o ho hcl).1
    cases fuel with
    | zero => simp at hf
    | succ f =>
      simp only [refLoop, ho, hb, Bool.false_eq_true, if_false,
        uacpi_shareable_ref, if_neg hty]
      refine congrArg some ?_
      ext x
      · by_cases hx : x = a <;> simp [bumpObjs, hx, ho]
      · rfl
      · rfl
  | cons b rest' ih =>
    intro a h fuel bfl tptr hc hcl hnd hf
    obtain ⟨o, ho⟩ := chainOk_mem_exists h _ hc a (by simp)
    obtain ⟨hty, hin, hc'⟩ := chainOk_cons_cons h a b rest' o ho hc
    obtain ⟨hb, hcl'⟩ := chainClean_cons h a (b :: rest') o ho hcl
    have hna : a ∉ b :: rest' := (List.nodup_cons.mp hnd).1
    cases fuel with
    | zero => simp at hf
    | succ f =>
      simp only [refLoop, ho, hb, Bool.false_eq_true, if_false,
        uacpi_shareable_ref, if_pos hty]
      have hmem : ∀ x ∈ b :: rest',
          (h.setObj a { o with refcount := o.refcount + 1 }).objects x = h.objects x := by
        intro x hx
        have hxa : x ≠ a := fun hh => hna (hh ▸ hx)
        simp [hxa]
      have hc2 := (chainOk_congr _ h _ hmem).trans hc'
      have hcl2 := (chainClean_congr _ h _ hmem).trans hcl'
      have hrun := ih b (h.setObj a { o with refcount := o.refcount + 1 }) f bfl tptr
        hc2 hcl2 (List.nodup_cons.mp hnd).2 (by simpa using hf)
      rw [← hin] at hrun
      rw [hrun]
      refine congrArg some ?_
      rw [show bumpObjs h (a :: b :: rest') =
          bumpObjs (h.setObj a { o with refcount := o.refcount + 1 }) (b :: rest') from
        mapObjs_cons h a (b :: rest') _ o ho hna]

theorem uacpi_object_ref_clean (a : Nat) (rest : List Nat) (h : Heap)
    (fuel : Nat) (hc : chainOk h (a :: rest) = true)
    (hcl : chainClean h (a :: rest) = true) (hnd : (a :: rest).Nodup)
    (hf : (a :: rest).length ≤ fuel) :
    uacpi_object_ref fuel h (some a) = some (bumpObjs h (a :: rest)) :=
  refLoop_clean rest a h fuel fuel (some a) hc hcl hnd hf

theorem chainClean_head (h : Heap) (a : Nat) (rest : List Nat)
    (hc : chainClean h (a :: rest) = true) :
    ∃ o, h.objects a = some o ∧ uacpi_bugged_shareable o = false := by
  simp only [chainClean, List.all_cons, Bool.and_eq_true] at hc
  cases ho : h.objects a with
  | none => rw [ho] at hc; simp at hc
  | some o =>
    rw [ho] at hc
    exact ⟨o, rfl, by simpa using hc.1⟩

theorem chainMono_cons (h : Heap) (a b : Nat) (rest : List Nat)
    (hm : chainMono h (a :: b :: rest) = true) :
    rc h a ≤ rc h b ∧ chainMono h (b :: rest) = true := by
  simpa [chainMono] using hm

theorem chainMono_head_le (rest : List Nat) :
    ∀ (a : Nat) (h : Heap), chainMono h (a :: rest) = true →
    ∀ x ∈ a :: rest, rc h a ≤ rc h x := by
  induction rest with
  | nil =>
    intro a h _ x hx
    simp only [List.mem_singleton] at hx
    exact hx ▸ le_refl _
  | cons b rest' ih =>
    intro a h hm x hx
    obtain ⟨hab, hm'⟩ := chainMono_cons h a b rest' hm
    rcases List.mem_cons.mp hx with hx | hx
    · exact hx ▸ le_refl _
    · exact hab.trans (ih b h hm' x hx)

theorem shareable_unref_eta (o : Object)
    (hb : uacpi_bugged_shareable o = false) :
    uacpi_shareable_unref o = (o.refcount, { o with refcount := o.refcount - 1 }) := by
  simp [uacpi_shareable_unref, hb]

theorem walkSpec_cons_step (h : Heap) (pr : Nat) (a : Nat) (rest : List Nat)
    (o : Object) (ho : h.objects a = some o)
    (hb : uacpi_bugged_shareable o = false) (hlt : ¬ o.refcount < pr) :
    walkSpec h pr (a :: rest) =
      ((walkSpec h o.refcount rest).1 + 1, (walkSpec h o.refcount rest).2) := by
  simp [walkSpec, ho, hb, hlt]

theorem walkSpec_complete (rest : List Nat) :
    ∀ (a : Nat) (h : Heap) (pr : Nat),
    chainClean h (a :: rest) = true → chainMono h (a :: rest) = true →
    pr ≤ rc h a →
    walkSpec h pr (a :: rest) = ((a :: rest).length, true) := by
  induction rest with
  | nil =>
    intro a h pr hcl hm hpr
    obtain ⟨o, ho, hb⟩ := chainClean_head h a [] hcl
    rw [rc, ho] at hpr
    simp [walkSpec, ho, hb, Nat.not_lt.mpr hpr]
  | cons b rest' ih =>
    intro a h pr hcl hm hpr
    obtain ⟨o, ho, hb⟩ := chainClean_head h a (b :: rest') hcl
    have hcl' := (chainClean_cons h a (b :: rest') o ho hcl).2
    obtain ⟨hab, hm'⟩ := chainMono_cons h a b rest' hm
    rw [rc, ho] at hpr
    have hrec := ih b h o.refcount hcl' hm' (by rw [rc, ho] at hab; exact hab)
    rw [walkSpec_cons_step h pr a (b :: rest') o ho hb (Nat.not_lt.mpr hpr), hrec]
    simp

theorem walkSpec_props (as : List Nat) :
    ∀ (h : Heap) (pr k : Nat) (fl : Bool), walkSpec h pr as = (k, fl) →
    k ≤ as.length ∧
    (∀ x ∈ as.take k, ∃ o, h.objects x = some o ∧
       uacpi_bugged_shareable o = false) ∧
    (fl = true → chainClean h as = true ∧ k = as.length) := by
  induction as with
  | nil =>
    intro h pr k fl hw
    simp only [walkSpec] at hw
    obtain ⟨hk, hfl⟩ := Prod.mk.injEq .. ▸ hw
    subst hk
    refine ⟨by simp, by simp, fun _ => ⟨by simp [chainClean], rfl⟩⟩
  | cons a rest ih =>
    intro h pr k fl hw
    cases ho : h.objects a with
    | none =>
      simp only [walkSpec, ho] at hw
      obtain ⟨hk, hfl⟩ := Prod.mk.inj hw
      subst hk
      exact ⟨by simp, by simp, fun hf => by simp [← hfl] at hf⟩
    | some o =>
      by_cases hb : uacpi_bugged_shareable o = true
      · simp only [walkSpec, ho, hb, if_true] at hw
        obtain ⟨hk, hfl⟩ := Prod.mk.inj hw
        subst hk
        exact ⟨by simp, by simp, fun hf => by simp [← hfl] at hf⟩
      · rw [Bool.not_eq_true] at hb
        by_cases hlt : o.refcount < pr
        · simp only [walkSpec, ho, hb, Bool.false_eq_true, if_false,
            if_pos hlt] at hw
          obtain ⟨hk, hfl⟩ := Prod.mk.inj hw
          subst hk
          exact ⟨by simp, by simp, fun hf => by simp [← hfl] at hf⟩
        · rw [walkSpec_cons_step h pr a rest o ho hb hlt] at hw
          rcases hsp : walkSpec h o.refcount rest with ⟨k', f'⟩
          rw [hsp] at hw
          obtain ⟨hk, hfl⟩ := Prod.mk.inj hw
          obtain ⟨hle, htake, hcl⟩ := ih h o.refcount k' f' hsp
          subst hk
          refine ⟨by simpa using hle, ?_, ?_⟩
          · intro x hx
            rw [List.take_succ_cons] at hx
            rcases List.mem_cons.mp hx with hx' | hx'
            · exact hx' ▸ ⟨o, ho, hb⟩
            · exact htake x hx'
          · intro hf
            obtain ⟨hcl', hk'⟩ := hcl (hfl.trans hf)
            constructor
            · simp only [chainClean, List.all_cons, Bool.and_eq_true]
              exact ⟨by simp [ho, hb], by simpa [chainClean] using hcl'⟩
            · simp [hk']

theorem unrefLoop_bugged (bfl fuel : Nat) (h : Heap) (tptr : Option Nat)
    (pr a : Nat) (o : Object) (ho : h.objects a = some o)
    (hb : uacpi_bugged_shareable o = true) :
    unrefLoop bfl (fuel + 1) h tptr pr (some a) =
      (make_chain_bugged bfl h tptr).map (fun hh => (hh, false)) := by
  simp [unrefLoop, ho, hb]

theorem unrefLoop_lt (bfl fuel : Nat) (h : Heap) (tptr : Option Nat)
    (pr a : Nat) (o : Object) (ho : h.objects a = some o)
    (hb : uacpi_bugged_shareable o = false) (hlt : o.refcount < pr) :
    unrefLoop bfl (fuel + 1) h tptr pr (some a) =
      (make_chain_bugged bfl h tptr).map (fun hh => (hh, false)) := by
  simp [unrefLoop, ho, hb, hlt]

theorem unrefLoop_step (bfl fuel : Nat) (h : Heap) (tptr : Option Nat)
    (pr a : Nat) (o : Object) (ho : h.objects a = some o)
    (hb : uacpi_bugged_shareable o = false) (hlt : ¬ o.refcount < pr) :
    unrefLoop bfl (fuel + 1) h tptr pr (some a) =
      unrefLoop bfl fuel (h.setObj a { o with refcount := o.refcount - 1 })
        tptr o.refcount
        (if o.ty = .Reference then o.inner_object else none) := by
  simp [unrefLoop, ho, hb, hlt, shareable_unref_eta o hb]

theorem unrefLoop_complete (rest : List Nat) :
    ∀ (a : Nat) (h : Heap) (pr : Nat) (tptr : Option Nat) (fuel bfl : Nat),
    chainOk h (a :: rest) = true → (a :: rest).Nodup →
    (walkSpec h pr (a :: rest)).2 = true → (a :: rest).length ≤ fuel →
    unrefLoop bfl fuel h tptr pr (some a) =
      some (decObjs h (a :: rest), true) := by
  induction rest with
  | nil =>
    intro a h pr tptr fuel bfl hc hnd hw hf
    obtain ⟨o, ho⟩ := chainOk_mem_exists h [a] hc a (by simp)
    have hty := chainOk_single h a o ho hc
    by_cases hb : uacpi_bugged_shareable o = true
    · simp [walkSpec, ho, hb] at hw
    rw [Bool.not_eq_true] at hb
    by_cases hlt : o.refcount < pr
    · simp [walkSpec, ho, hb, hlt] at hw
    cases fuel with
    | zero => simp at hf
    | succ f =>
      rw [unrefLoop_step bfl f h tptr pr a o ho hb hlt, if_neg hty]
      have hd : h.setObj a { o with refcount := o.refcount - 1 } = decObjs h [a] := by
        ext x
        · by_cases hx : x = a <;> simp [decObjs, hx, ho]
        · rfl
        · rfl
      rw [hd]
      simp [unrefLoop]
  | cons b rest' ih =>
    intro a h pr tptr fuel bfl hc hnd hw hf
    obtain ⟨o, ho⟩ := chainOk_mem_exists h _ hc a (by simp)
    obtain ⟨hty, hin, hc'⟩ := chainOk_cons_cons h a b rest' o ho hc
    have hna : a ∉ b :: rest' := (List.nodup_cons.mp hnd).1
    by_cases hb : uacpi_bugged_shareable o = true
    · simp [walkSpec, ho, hb] at hw
    rw [Bool.not_eq_true] at hb
    by_cases hlt : o.refcount < pr
    · simp [walkSpec, ho, hb, hlt] at hw
    have hw' : (walkSpec h o.refcount (b :: rest')).2 = true := by
      rw [walkSpec_cons_step h pr a (b :: rest') o ho hb hlt] at hw
      exact hw
    cases fuel with
    | zero => simp at hf
    | succ f =>
      have hmem : ∀ x ∈ b :: rest',
          (h.setObj a { o with refcount := o.refcount - 1 }).objects x =
            h.objects x := by
        intro x hx
        have hxa : x ≠ a := fun hh => hna (hh ▸ hx)
        simp [hxa]
      have hc2 := (chainOk_congr _ h _ hmem).trans hc'
      have hw2 : (walkSpec (h.setObj a { o with refcount := o.refcount - 1 })
          o.refcount (b :: rest')).2 = true := by
        rw [walkSpec_congr _ h o.refcount _ hmem]
        exact hw'
      have hrun := ih b _ o.refcount tptr f bfl hc2
        (List.nodup_cons.mp hnd).2 hw2 (by simpa using hf)
      rw [← hin] at hrun
      rw [unrefLoop_step bfl f h tptr pr a o ho hb hlt, if_pos hty, hrun]
      rw [show decObjs h (a :: b :: rest') =
          decObjs (h.setObj a { o with refcount := o.refcount - 1 }) (b :: rest') from
        mapObjs_cons h a (b :: rest') _ o ho hna]

theorem unrefLoop_abort (rest : List Nat) :
    ∀ (a : Nat) (h : Heap) (pr k : Nat) (tptr : Option Nat) (fuel bfl : Nat),
    chainOk h (a :: rest) = true → (a :: rest).Nodup →
    walkSpec h pr (a :: rest) = (k, false) → (a :: rest).length ≤ fuel →
    unrefLoop bfl fuel h tptr pr (some a) =
      (make_chain_bugged bfl (decObjs h ((a :: rest).take k)) tptr).map
        (fun hh => (hh, false)) := by
  induction rest with
  | nil =>
    intro a h pr k tptr fuel bfl hc hnd hw hf
    obtain ⟨o, ho⟩ := chainOk_mem_exists h [a] hc a (by simp)
    cases fuel with
    | zero => simp at hf
    | succ f =>
      by_cases hb : uacpi_bugged_shareable o = true
      · simp only [walkSpec, ho, hb, if_true] at hw
        obtain ⟨hk, -⟩ := Prod.mk.inj hw
        subst hk
        rw [unrefLoop_bugged bfl f h tptr pr a o ho hb]
        rw [List.take_zero, show decObjs h [] = h from mapObjs_nil h _]
      · rw [Bool.not_eq_true] at hb
        by_cases hlt : o.refcount < pr
        · simp only [walkSpec, ho, hb, Bool.false_eq_true, if_false,
            if_pos hlt] at hw
          obtain ⟨hk, -⟩ := Prod.mk.inj hw
          subst hk
          rw [unrefLoop_lt bfl f h tptr pr a o ho hb hlt]
          rw [List.take_zero, show decObjs h [] = h from mapObjs_nil h _]
        · simp [walkSpec, ho, hb, hlt] at hw
  | cons b rest' ih =>
    intro a h pr k tptr fuel bfl hc hnd hw hf
    obtain ⟨o, ho⟩ := chainOk_mem_exists h _ hc a (by simp)
    obtain ⟨hty, hin, hc'⟩ := chainOk_cons_cons h a b rest' o ho hc
    have hna : a ∉ b :: rest' := (List.nodup_cons.mp hnd).1
    cases fuel with
    | zero => simp at hf
    | succ f =>
      by_cases hb : uacpi_bugged_shareable o = true
      · simp only [walkSpec, ho, hb, if_true] at hw
        obtain ⟨hk, -⟩ := Prod.mk.inj hw
        subst hk
        rw [unrefLoop_bugged bfl f h tptr pr a o ho hb]
        rw [List.take_zero, show decObjs h [] = h from mapObjs_nil h _]
      · rw [Bool.not_eq_true] at hb
        by_cases hlt : o.refcount < pr
        · simp only [walkSpec, ho, hb, Bool.false_eq_true, if_false,
            if_pos hlt] at hw
          obtain ⟨hk, -⟩ := Prod.mk.inj hw
          subst hk
          rw [unrefLoop_lt bfl f h tptr pr a o ho hb hlt]
          rw [List.take_zero, show decObjs h [] = h from mapObjs_nil h _]
        · rcases hsp : walkSpec h o.refcount (b :: rest') with ⟨k', f'⟩
          rw [walkSpec_cons_step h pr a (b :: rest') o ho hb hlt, hsp] at hw
          obtain ⟨hk, hf'⟩ := Prod.mk.inj hw
          subst hk
          have hf'' : f' = false := by simpa using hf'
          have hsp' : walkSpec h o.refcount (b :: rest') = (k', false) := by
            rw [hsp, hf'']
          have hmem : ∀ x ∈ b :: rest',
              (h.setObj a { o with refcount := o.refcount - 1 }).objects x =
                h.objects x := by
            intro x hx
            have hxa : x ≠ a := fun hh => hna (hh ▸ hx)
            simp [hxa]
          have hc2 := (chainOk_congr _ h _ hmem).trans hc'
          have hsp2 : walkSpec (h.setObj a { o with refcount := o.refcount - 1 })
              o.refcount (b :: rest') = (k', false) := by
            rw [walkSpec_congr _ h o.refcount _ hmem]
            exact hsp'
          have hrun := ih b _ o.refcount k' tptr f bfl hc2
            (List.nodup_cons.mp hnd).2 hsp2 (by simpa using hf)
          rw [← hin] at hrun
          rw [unrefLoop_step bfl f h tptr pr a o ho hb hlt, if_pos hty, hrun]
          rw [List.take_succ_cons]
          rw [show decObjs h (a :: (b :: rest').take k') =
              decObjs (h.setObj a { o with refcount := o.refcount - 1 })
                ((b :: rest').take k') from
            mapObjs_cons h a _ _ o ho
              (fun hmem' => hna (List.take_subset _ _ hmem'))]

theorem decObjs_objects_mem (h : Heap) (as : List Nat) (a : Nat) (o : Object)
    (ha : a ∈ as) (ho : h.objects a = some o) :
    (decObjs h as).objects a = some { o with refcount := o.refcount - 1 } := by
  simp [decObjs, ha, ho]

theorem unref_complete_nofree (a : Nat) (rest : List Nat) (h : Heap)
    (fuel : Nat) (hc : chainOk h (a :: rest) = true)
    (hcl : chainClean h (a :: rest) = true)
    (hm : chainMono h (a :: rest) = true) (hnd : (a :: rest).Nodup)
    (hf : (a :: rest).length ≤ fuel) (h2 : 2 ≤ rc h a) :
    uacpi_object_unref fuel h (some a) = some (decObjs h (a :: rest)) := by
  obtain ⟨o, ho, hb⟩ := chainClean_head h a rest hcl
  have hw := walkSpec_complete rest a h o.refcount hcl hm (by rw [rc, ho])
  simp only [uacpi_object_unref, ho]
  rw [unrefLoop_complete rest a h o.refcount (some a) fuel fuel hc hnd
    (by rw [hw]) hf]
  have hlook := decObjs_objects_mem h (a :: rest) a o (by simp) ho
  simp only [rc, ho] at h2
  simp only [hlook]
  rw [if_neg (show ¬ ({ o with refcount := o.refcount - 1 } : Object).refcount = 0 from by
    simp only []
    omega)]

theorem unref_complete_free (a : Nat) (rest : List Nat) (h : Heap)
    (fuel : Nat) (hc : chainOk h (a :: rest) = true)
    (hcl : chainClean h (a :: rest) = true)
    (hm : chainMono h (a :: rest) = true) (hnd : (a :: rest).Nodup)
    (hf : (a :: rest).length ≤ fuel) (h1 : rc h a = 1) :
    uacpi_object_unref fuel h (some a) =
      free_chain fuel (decObjs h (a :: rest)) (some a) := by
  obtain ⟨o, ho, hb⟩ := chainClean_head h a rest hcl
  have hw := walkSpec_complete rest a h o.refcount hcl hm (by rw [rc, ho])
  simp only [uacpi_object_unref, ho]
  rw [unrefLoop_complete rest a h o.refcount (some a) fuel fuel hc hnd
    (by rw [hw]) hf]
  have hlook := decObjs_objects_mem h (a :: rest) a o (by simp) ho
  simp only [rc, ho] at h1
  simp only [hlook]
  rw [if_pos (show ({ o with refcount := o.refcount - 1 } : Object).refcount = 0 from by
    simp only []
    omega)]

theorem unref_abort (a : Nat) (rest : List Nat) (h : Heap) (fuel k : Nat)
    (hc : chainOk h (a :: rest) = true) (hnd : (a :: rest).Nodup)
    (hw : walkSpec h (rc h a) (a :: rest) = (k, false))
    (hf : (a :: rest).length ≤ fuel) :
    uacpi_object_unref fuel h (some a) =
      some (bugObjs (decObjs h ((a :: rest).take k)) (a :: rest)) := by
  obtain ⟨o, ho⟩ := chainOk_mem_exists h _ hc a (by simp)
  have hw' : walkSpec h o.refcount (a :: rest) = (k, false) := by
    rw [rc, ho] at hw
    exact hw
  simp only [uacpi_object_unref, ho]
  rw [unrefLoop_abort rest a h o.refcount k (some a) fuel fuel hc hnd hw' hf]
  have hcb : chainOk (decObjs h ((a :: rest).take k)) (a :: rest) = true := by
    rw [show chainOk (decObjs h ((a :: rest).take k)) (a :: rest) =
        chainOk h (a :: rest) from
      chainOk_mapObjs h _ _ _ (fun _ => rfl) (fun _ => rfl)]
    exact hc
  rw [make_chain_bugged_chain rest a _ fuel hcb hnd hf]
  simp

theorem free_object_ref (h : Heap) (a : Nat) (o : Object)
    (ho : h.objects a = some o) (hty : o.ty = .Reference) :
    free_object h a = some (h.delObj a) := by
  simp [free_object, ho, hty]

theorem free_chain_run (rest : List Nat) :
    ∀ (a : Nat) (hd : Heap) (fuel : Nat),
    chainOk hd (a :: rest) = true → (a :: rest).Nodup →
    (a :: rest).length ≤ fuel →
    (∀ x ∈ a :: rest, ∀ o, hd.objects x = some o → o.refcount = 0 →
       (o.ty = .String ∨ o.ty = .Buffer) → ∀ bA, o.buffer = some bA →
         ∃ b, hd.buffers bA = some b) →
    ∃ h', free_chain fuel hd (some a) = some h' ∧
      (∀ x ∈ a :: rest, ∀ o, hd.objects x = some o →
         (o.refcount = 0 → h'.objects x = none) ∧
         (o.refcount ≠ 0 → h'.objects x = some o)) ∧
      (∀ x, x ∉ a :: rest → h'.objects x = hd.objects x) ∧
      (∀ x ∈ a :: rest, ∀ o, hd.objects x = some o → o.refcount = 0 →
         ((o.ty = .String ∨ o.ty = .Buffer) →
            ∀ bA, o.buffer = some bA → ∀ b, hd.buffers bA = some b →
              h'.buffers bA =
                (if uacpi_bugged_shareable_buf b then some b
                 else if b.refcount = 1 then none
                 else some { b with refcount := b.refcount - 1 })) ∧
         (o.ty = .Method → ∀ m, o.method = some m → h'.methods m = false)) := by
  induction rest with
  | nil =>
    intro a hd fuel hc hnd hf hwf
    obtain ⟨o, ho⟩ := chainOk_mem_exists hd [a] hc a (by simp)
    have hty := chainOk_single hd a o ho hc
    cases fuel with
    | zero => simp at hf
    | succ f =>
      by_cases hz : o.refcount = 0
      · by_cases hsb : o.ty = .String ∨ o.ty = .Buffer
        · have hnm : ¬ o.ty = .Method := by
            rcases hsb with hsb | hsb <;> simp [hsb]
          cases hbuf : o.buffer with
          | none =>
            have hfo : free_object hd a = some (hd.delObj a) := by
              simp [free_object, ho, hsb, hbuf, hnm,
                uacpi_shareable_unref_and_delete_if_last]
            refine ⟨hd.delObj a, ?_, ?_, ?_, ?_⟩
            · simp [free_chain, ho, if_neg hty, hz, hfo]
            · intro x hx o' ho'
              simp only [List.mem_singleton] at hx
              subst hx
              rw [ho] at ho'
              obtain rfl := Option.some.inj ho'
              exact ⟨fun _ => by simp, fun hnz => absurd hz hnz⟩
            · intro x hx
              have hxa : x ≠ a := by simpa using hx
              simp [hxa]
            · intro x hx o' ho' _
              simp only [List.mem_singleton] at hx
              subst hx
              rw [ho] at ho'
              obtain rfl := Option.some.inj ho'
              refine ⟨fun _ bA hbA => ?_, fun hm => absurd hm hnm⟩
              rw [hbuf] at hbA
              exact absurd hbA (by simp)
          | some bA =>
            obtain ⟨b, hb⟩ := hwf a (by simp) o ho hz hsb bA hbuf
            by_cases hbug : uacpi_bugged_shareable_buf b = true
            · have hfo : free_object hd a = some (hd.delObj a) := by
                simp [free_object, ho, hsb, hbuf, hnm,
                  uacpi_shareable_unref_and_delete_if_last, hb, hbug]
              refine ⟨hd.delObj a, ?_, ?_, ?_, ?_⟩
              · simp [free_chain, ho, if_neg hty, hz, hfo]
              · intro x hx o' ho'
                simp only [List.mem_singleton] at hx
                subst hx
                rw [ho] at ho'
                obtain rfl := Option.some.inj ho'
                exact ⟨fun _ => by simp, fun hnz => absurd hz hnz⟩
              · intro x hx
                have hxa : x ≠ a := by simpa using hx
                simp [hxa]
              · intro x hx o' ho' _
                simp only [List.mem_singleton] at hx
                subst hx
                rw [ho] at ho'
                obtain rfl := Option.some.inj ho'
                refine ⟨fun _ bA' hbA' b' hb' => ?_, fun hm => absurd hm hnm⟩
                rw [hbuf] at hbA'
                obtain rfl := Option.some.inj hbA'
                rw [hb] at hb'
                obtain rfl := Option.some.inj hb'
                simp [hbug, hb]
            · rw [Bool.not_eq_true] at hbug
              by_cases hrc : b.refcount = 1
              · have hfo : free_object hd a = some ((hd.delBuf bA).delObj a) := by
                  simp [free_object, ho, hsb, hbuf, hnm,
                    uacpi_shareable_unref_and_delete_if_last, hb, hbug, hrc]
                refine ⟨(hd.delBuf bA).delObj a, ?_, ?_, ?_, ?_⟩
                · simp [free_chain, ho, if_neg hty, hz, hfo]
                · intro x hx o' ho'
                  simp only [List.mem_singleton] at hx
                  subst hx
                  rw [ho] at ho'
                  obtain rfl := Option.some.inj ho'
                  exact ⟨fun _ => by simp, fun hnz => absurd hz hnz⟩
                · intro x hx
                  have hxa : x ≠ a := by simpa using hx
                  simp [hxa]
                · intro x hx o' ho' _
                  simp only [List.mem_singleton] at hx
                  subst hx
                  rw [ho] at ho'
                  obtain rfl := Option.some.inj ho'
                  refine ⟨fun _ bA' hbA' b' hb' => ?_, fun hm => absurd hm hnm⟩
                  rw [hbuf] at hbA'
                  obtain rfl := Option.some.inj hbA'
                  rw [hb] at hb'
                  obtain rfl := Option.some.inj hb'
                  simp [hbug, hrc]
              · have hfo : free_object hd a =
                    some ((hd.setBuf bA { b with refcount := b.refcount - 1 }).delObj a) := by
                  simp [free_object, ho, hsb, hbuf, hnm,
                    uacpi_shareable_unref_and_delete_if_last, hb, hbug, hrc]
                refine ⟨(hd.setBuf bA { b with refcount := b.refcount - 1 }).delObj a,
                  ?_, ?_, ?_, ?_⟩
                · simp [free_chain, ho, if_neg hty, hz, hfo]
                · intro x hx o' ho'
                  simp only [List.mem_singleton] at hx
                  subst hx
                  rw [ho] at ho'
                  obtain rfl := Option.some.inj ho'
                  exact ⟨fun _ => by simp, fun hnz => absurd hz hnz⟩
                · intro x hx
                  have hxa : x ≠ a := by simpa using hx
                  simp [hxa]
                · intro x hx o' ho' _
                  simp only [List.mem_singleton] at hx
                  subst hx
                  rw [ho] at ho'
                  obtain rfl := Option.some.inj ho'
                  refine ⟨fun _ bA' hbA' b' hb' => ?_, fun hm => absurd hm hnm⟩
                  rw [hbuf] at hbA'
                  obtain rfl := Option.some.inj hbA'
                  rw [hb] at hb'
                  obtain rfl := Option.some.inj hb'
                  simp [hbug, hrc]
        · by_cases hmt : o.ty = .Method
          · have hfo : free_object hd a = some ((hd.freeMethod o.method).delObj a) := by
              simp [free_object, ho, hsb, hmt]
            refine ⟨(hd.freeMethod o.method).delObj a, ?_, ?_, ?_, ?_⟩
            · simp [free_chain, ho, if_neg hty, hz, hfo]
            · intro x hx o' ho'
              simp only [List.mem_singleton] at hx
              subst hx
              rw [ho] at ho'
              obtain rfl := Option.some.inj ho'
              exact ⟨fun _ => by simp, fun hnz => absurd hz hnz⟩
            · intro x hx
              have hxa : x ≠ a := by simpa using hx
              simp [hxa]
            · intro x hx o' ho' _
              simp only [List.mem_singleton] at hx
              subst hx
              rw [ho] at ho'
              obtain rfl := Option.some.inj ho'
              refine ⟨fun hsb' => absurd hsb' hsb, fun _ m hm => ?_⟩
              simp [Heap.freeMethod, hm]
          · have hfo : free_object hd a = some (hd.delObj a) := by
              simp [free_object, ho, hsb, hmt]
            refine ⟨hd.delObj a, ?_, ?_, ?_, ?_⟩
            · simp [free_chain, ho, if_neg hty, hz, hfo]
            · intro x hx o' ho'
              simp only [List.mem_singleton] at hx
              subst hx
              rw [ho] at ho'
              obtain rfl := Option.some.inj ho'
              exact ⟨fun _ => by simp, fun hnz => absurd hz hnz⟩
            · intro x hx
              have hxa : x ≠ a := by simpa using hx
              simp [hxa]
            · intro x hx o' ho' _
              simp only [List.mem_singleton] at hx
              subst hx
              rw [ho] at ho'
              obtain rfl := Option.some.inj ho'
              exact ⟨fun hsb' => absurd hsb' hsb, fun hm => absurd hm hmt⟩
      · refine ⟨hd, ?_, ?_, ?_, ?_⟩
        · simp [free_chain, ho, if_neg hty, hz]
        · intro x hx o' ho'
          simp only [List.mem_singleton] at hx
          subst hx
          rw [ho] at ho'
          obtain rfl := Option.some.inj ho'
          exact ⟨fun hz' => absurd hz' hz, fun _ => ho⟩
        · intro x _
          rfl
        · intro x hx o' ho' hz'
          simp only [List.mem_singleton] at hx
          subst hx
          rw [ho] at ho'
          obtain rfl := Option.some.inj ho'
          exact absurd hz' hz
  | cons b rest' ih =>
    intro a hd fuel hc hnd hf hwf
    obtain ⟨o, ho⟩ := chainOk_mem_exists hd _ hc a (by simp)
    obtain ⟨hty, hin, hc'⟩ := chainOk_cons_cons hd a b rest' o ho hc
    have hna : a ∉ b :: rest' := (List.nodup_cons.mp hnd).1
    cases fuel with
    | zero => simp at hf
    | succ f =>
      by_cases hz : o.refcount = 0
      · have hfo := free_object_ref hd a o ho hty
        have hstep : free_chain (f + 1) hd (some a) =
            free_chain f (hd.delObj a) (some b) := by
          simp [free_chain, ho, hty, hin, hz, hfo]
        have hmem : ∀ x ∈ b :: rest', (hd.delObj a).objects x = hd.objects x := by
          intro x hx
          have hxa : x ≠ a := fun hh => hna (hh ▸ hx)
          simp [hxa]
        have hc2 := (chainOk_congr _ hd _ hmem).trans hc'
        have hwf2 : ∀ x ∈ b :: rest', ∀ o', (hd.delObj a).objects x = some o' →
            o'.refcount = 0 → (o'.ty = .String ∨ o'.ty = .Buffer) →
            ∀ bA, o'.buffer = some bA → ∃ bb, (hd.delObj a).buffers bA = some bb := by
          intro x hx o' ho' hz' hsb bA hbA
          rw [hmem x hx] at ho'
          exact hwf x (by simp [hx]) o' ho' hz' hsb bA hbA
        obtain ⟨h', hrun, hfate, hframe, hrel⟩ := ih b (hd.delObj a) f hc2
          (List.nodup_cons.mp hnd).2 (by simpa using hf) hwf2
        refine ⟨h', hstep.trans hrun, ?_, ?_, ?_⟩
        · intro x hx o' ho'
          rcases List.mem_cons.mp hx with hx' | hx'
          · subst hx'
            rw [ho] at ho'
            obtain rfl := Option.some.inj ho'
            refine ⟨fun _ => ?_, fun hnz => absurd hz hnz⟩
            rw [hframe x hna]
            simp
          · have := hfate x hx' o' (by rw [hmem x hx']; exact ho')
            exact this
        · intro x hx
          have hxa : x ≠ a := fun hh => hx (hh ▸ List.mem_cons_self a _)
          have hxr : x ∉ b :: rest' := fun hh => hx (List.mem_cons_of_mem a hh)
          rw [hframe x hxr]
          simp [hxa]
        · intro x hx o' ho' hz'
          rcases List.mem_cons.mp hx with hx' | hx'
          · subst hx'
            rw [ho] at ho'
            obtain rfl := Option.some.inj ho'
            constructor
            · intro hsb
              rw [hty] at hsb
              rcases hsb with hsb | hsb <;> simp at hsb
            · intro hm
              rw [hty] at hm
              simp at hm
          · have := hrel x hx' o' (by rw [hmem x hx']; exact ho') hz'
            exact this
      · have hstep : free_chain (f + 1) hd (some a) =
            free_chain f hd (some b) := by
          simp [free_chain, ho, hty, hin, hz]
        obtain ⟨h', hrun, hfate, hframe, hrel⟩ := ih b hd f hc'
          (List.nodup_cons.mp hnd).2 (by simpa using hf)
          (fun x hx o' ho' hz' hsb bA hbA =>
            hwf x (by simp [hx]) o' ho' hz' hsb bA hbA)
        refine ⟨h', hstep.trans hrun, ?_, ?_, ?_⟩
        · intro x hx o' ho'
          rcases List.mem_cons.mp hx with hx' | hx'
          · subst hx'
            rw [ho] at ho'
            obtain rfl := Option.some.inj ho'
            refine ⟨fun hz' => absurd hz' hz, fun _ => ?_⟩
            rw [hframe x hna]
            exact ho
          · exact hfate x hx' o' ho'
        · intro x hx
          exact hframe x fun hh => hx (List.mem_cons_of_mem a hh)
        · intro x hx o' ho' hz'
          rcases List.mem_cons.mp hx with hx' | hx'
          · subst hx'
            rw [ho] at ho'
            obtain rfl := Option.some.inj ho'
            exact absurd hz' hz
          · exact hrel x hx' o' ho' hz'

theorem chainClean_iff (h : Heap) (as : List Nat) :
    chainClean h as = true ↔
      ∀ x ∈ as, ∃ o, h.objects x = some o ∧ uacpi_bugged_shareable o = false := by
  simp only [chainClean, List.all_eq_true]
  constructor
  · intro hall x hx
    have := hall x hx
    cases ho : h.objects x with
    | none => rw [ho] at this; simp at this
    | some o =>
      rw [ho] at this
      exact ⟨o, rfl, by simpa using this⟩
  · intro hall x hx
    obtain ⟨o, ho, hb⟩ := hall x hx
    rw [ho]
    simp [hb]

theorem chainBufWf_spec (h : Heap) (as : List Nat)
    (hw : chainBufWf h as = true) :
    ∀ x ∈ as, ∀ o, h.objects x = some o → o.refcount = 1 →
      (o.ty = .String ∨ o.ty = .Buffer) → ∀ bA, o.buffer = some bA →
      ∃ b, h.buffers bA = some b := by
  simp only [chainBufWf, List.all_eq_true] at hw
  intro x hx o ho h1 hsb bA hbA
  have := hw x hx
  simp only [ho] at this
  rw [if_pos ⟨h1, hsb⟩] at this
  simp only [hbA] at this
  cases hb : h.buffers bA with
  | none => rw [hb] at this; simp at this
  | some b => exact ⟨b, rfl⟩

theorem chainMono_of_map (as : List Nat) (g : Nat → Nat)
    (hg : ∀ m n, m ≤ n → g m ≤ g n) :
    ∀ (h1 h2 : Heap), (∀ x ∈ as, rc h1 x = g (rc h2 x)) →
    chainMono h2 as = true → chainMono h1 as = true := by
  induction as with
  | nil => intro h1 h2 _ _; rfl
  | cons a rest ih =>
    intro h1 h2 hrc hm
    cases rest with
    | nil => rfl
    | cons b rest' =>
      obtain ⟨hab, hm'⟩ := chainMono_cons h2 a b rest' hm
      have := ih h1 h2 (fun x hx => hrc x (by simp [hx])) hm'
      simp only [chainMono, Bool.and_eq_true, decide_eq_true_eq]
      refine ⟨?_, by simpa [chainMono] using this⟩
      rw [hrc a (by simp), hrc b (by simp)]
      exact hg _ _ hab

theorem rc_bumpObjs_mem (h : Heap) (as : List Nat) (x : Nat) (o : Object)
    (hx : x ∈ as) (ho : h.objects x = some o) :
    rc (bumpObjs h as) x = o.refcount + 1 := by
  simp [rc, bumpObjs, hx, ho]

theorem decObjs_bumpObjs (h : Heap) (as : List Nat) :
    decObjs (bumpObjs h as) as = h := by
  ext x
  · by_cases hx : x ∈ as
    · cases ho : h.objects x with
      | none => simp [decObjs, bumpObjs, hx, ho]
      | some o => simp [decObjs, bumpObjs, hx, ho]
    · simp [decObjs, bumpObjs, hx]
  · rfl
  · rfl

/-- Claim C1, as stated, is false: on the depth-1 chain `hC1` (outer Reference
count 5, inner Integer count 3, no link bugged) one `ref` increments both
counts, but the subsequent `unref` aborts on the consistency check
(inner count 4 < outer's prior count 6), marks the chain bugged, and leaves
the inner count at 4 instead of restoring it to 3. -/
theorem C1_counterexample :
    (hC1.objects 2).map Object.refcount = some 3 ∧
    ((uacpi_object_ref 3 hC1 (some 1)).bind fun h1 =>
        uacpi_object_unref 3 h1 (some 1)).map
      (fun h2 => ((h2.objects 2).map Object.refcount,
                  (h2.objects 2).map Object.bugged)) =
      some (some 4, some true) := by
  decide

/-- Claim C1 (amended): for a reference chain of depth k (k+1 objects), with
no link bugged and with refcounts nondecreasing along the chain (each inner
object holds at least as many references as the link pointing into it, the
spec's §3 invariant), one `ref` increments the refcount of each of the k+1
objects by exactly 1, and one subsequent `unref` restores the heap exactly. -/
theorem C1_ref_unref_balanced (k : Nat) (a : Nat) (rest : List Nat) (h : Heap)
    (fuel : Nat) (hlen : (a :: rest).length = k + 1)
    (hc : chainOk h (a :: rest) = true)
    (hcl : chainClean h (a :: rest) = true)
    (hm : chainMono h (a :: rest) = true)
    (hnd : (a :: rest).Nodup)
    (hf : (a :: rest).length ≤ fuel) :
    uacpi_object_ref fuel h (some a) = some (bumpObjs h (a :: rest)) ∧
    (∀ x ∈ a :: rest, ∀ o, h.objects x = some o →
       (bumpObjs h (a :: rest)).objects x =
         some { o with refcount := o.refcount + 1 }) ∧
    uacpi_object_unref fuel (bumpObjs h (a :: rest)) (some a) = some h := by
  have hex := (chainClean_iff h (a :: rest)).mp hcl
  have href := uacpi_object_ref_clean a rest h fuel hc hcl hnd hf
  have hbump : ∀ x ∈ a :: rest, ∀ o, h.objects x = some o →
      (bumpObjs h (a :: rest)).objects x =
        some { o with refcount := o.refcount + 1 } := by
    intro x hx o ho
    simp [bumpObjs, hx, ho]
  have hc1 : chainOk (bumpObjs h (a :: rest)) (a :: rest) = true := by
    rw [show chainOk (bumpObjs h (a :: rest)) (a :: rest) =
        chainOk h (a :: rest) from
      chainOk_mapObjs h _ _ _ (fun _ => rfl) (fun _ => rfl)]
    exact hc
  have hcl1 : chainClean (bumpObjs h (a :: rest)) (a :: rest) = true := by
    rw [chainClean_iff]
    intro x hx
    obtain ⟨o, ho, hb⟩ := hex x hx
    refine ⟨{ o with refcount := o.refcount + 1 }, by simp [bumpObjs, hx, ho], ?_⟩
    simp only [uacpi_bugged_shareable, Bool.or_eq_false_iff,
      decide_eq_false_iff_not] at hb ⊢
    exact ⟨hb.1, by omega⟩
  have hm1 : chainMono (bumpObjs h (a :: rest)) (a :: rest) = true := by
    refine chainMono_of_map (a :: rest) (· + 1)
      (fun m n hmn => Nat.add_le_add_right hmn 1) _ h ?_ hm
    intro x hx
    obtain ⟨o, ho, _⟩ := hex x hx
    rw [rc_bumpObjs_mem h _ x o hx ho]
    simp [rc, ho]
  have h2 : 2 ≤ rc (bumpObjs h (a :: rest)) a := by
    obtain ⟨o, ho, hb⟩ := hex a (by simp)
    rw [rc_bumpObjs_mem h _ a o (by simp) ho]
    simp only [uacpi_bugged_shareable, Bool.or_eq_false_iff,
      decide_eq_false_iff_not] at hb
    omega
  have hunref := unref_complete_nofree a rest (bumpObjs h (a :: rest)) fuel
    hc1 hcl1 hm1 hnd hf h2
  rw [decObjs_bumpObjs] at hunref
  exact ⟨href, hbump, hunref⟩

/-- Witness for C1 at the depth-1 chain `hC1w` (counts 2 ≤ 3). -/
theorem C1_ref_unref_balanced_witness :
    uacpi_object_ref 2 hC1w (some 1) = some (bumpObjs hC1w [1, 2]) ∧
    (∀ x ∈ [1, 2], ∀ o, hC1w.objects x = some o →
       (bumpObjs hC1w [1, 2]).objects x =
         some { o with refcount := o.refcount + 1 }) ∧
    uacpi_object_unref 2 (bumpObjs hC1w [1, 2]) (some 1) = some hC1w :=
  C1_ref_unref_balanced 1 1 [2] hC1w 2 (by decide) (by decide) (by decide)
    (by decide) (by decide) (by decide)

/-- Claim C2: for an unref whose chain walk completes without detecting
corruption (clean links, nondecreasing counts), every chain object whose
count reached zero during the walk (prior count 1) is freed, the others are
just decremented; a freed String/Buffer object releases its backing buffer
(decrement, delete if last) and a freed Method object releases its method
handle. -/
theorem C2_unref_frees_zero_counts (a : Nat) (rest : List Nat) (h : Heap)
    (fuel : Nat) (hc : chainOk h (a :: rest) = true)
    (hcl : chainClean h (a :: rest) = true)
    (hm : chainMono h (a :: rest) = true)
    (hnd : (a :: rest).Nodup)
    (hw : chainBufWf h (a :: rest) = true)
    (hf : (a :: rest).length ≤ fuel) :
    ∃ h', uacpi_object_unref fuel h (some a) = some h' ∧
      (∀ x ∈ a :: rest, ∀ o, h.objects x = some o →
         (o.refcount = 1 → h'.objects x = none) ∧
         (2 ≤ o.refcount →
            h'.objects x = some { o with refcount := o.refcount - 1 })) ∧
      (∀ x ∈ a :: rest, ∀ o, h.objects x = some o → o.refcount = 1 →
         ((o.ty = .String ∨ o.ty = .Buffer) →
            ∀ bA, o.buffer = some bA → ∀ b, h.buffers bA = some b →
              uacpi_bugged_shareable_buf b = false →
              h'.buffers bA = (if b.refcount = 1 then none
                               else some { b with refcount := b.refcount - 1 })) ∧
         (o.ty = .Method → ∀ m, o.method = some m → h'.methods m = false)) := by
  have hex := (chainClean_iff h (a :: rest)).mp hcl
  obtain ⟨oh, hoh, hbh⟩ := hex a (by simp)
  have hwf := chainBufWf_spec h (a :: rest) hw
  by_cases h1 : rc h a = 1
  · have hd := unref_complete_free a rest h fuel hc hcl hm hnd hf h1
    have hcd : chainOk (decObjs h (a :: rest)) (a :: rest) = true := by
      rw [show chainOk (decObjs h (a :: rest)) (a :: rest) =
          chainOk h (a :: rest) from
        chainOk_mapObjs h _ _ _ (fun _ => rfl) (fun _ => rfl)]
      exact hc
    have hwfd : ∀ x ∈ a :: rest, ∀ o',
        (decObjs h (a :: rest)).objects x = some o' → o'.refcount = 0 →
        (o'.ty = .String ∨ o'.ty = .Buffer) → ∀ bA, o'.buffer = some bA →
        ∃ b, (decObjs h (a :: rest)).buffers bA = some b := by
      intro x hx o' ho' hz' hsb bA hbA
      obtain ⟨o, ho, hb⟩ := hex x hx
      have hdec := decObjs_objects_mem h (a :: rest) x o hx ho
      rw [hdec] at ho'
      obtain rfl := Option.some.inj ho'
      simp only [uacpi_bugged_shareable, Bool.or_eq_false_iff,
        decide_eq_false_iff_not] at hb
      have ho1 : o.refcount = 1 := by
        have : o.refcount - 1 = 0 := hz'
        omega
      exact hwf x hx o ho ho1 hsb bA hbA
    obtain ⟨h', hrun, hfate, hframe, hrel⟩ :=
      free_chain_run rest a (decObjs h (a :: rest)) fuel hcd hnd hf hwfd
    refine ⟨h', hd.trans hrun, ?_, ?_⟩
    · intro x hx o ho
      have hdec := decObjs_objects_mem h (a :: rest) x o hx ho
      obtain ⟨hzero, hpos⟩ := hfate x hx _ hdec
      constructor
      · intro ho1
        exact hzero (by simp [ho1])
      · intro h2
        have := hpos (by simp; omega)
        rw [this]
    · intro x hx o ho ho1
      have hdec := decObjs_objects_mem h (a :: rest) x o hx ho
      have := hrel x hx _ hdec (by simp [ho1])
      refine ⟨fun hsb bA hbA b hb hbug => ?_, fun hmt m hmm => ?_⟩
      · have hres := this.1 (by simpa using hsb) bA (by simpa using hbA) b
          (by simpa using hb)
        rw [hres, if_neg (by simp [hbug])]
      · exact this.2 (by simpa using hmt) m (by simpa using hmm)
  · have h2 : 2 ≤ rc h a := by
      simp only [uacpi_bugged_shareable, Bool.or_eq_false_iff,
        decide_eq_false_iff_not] at hbh
      simp only [rc, hoh] at h1 ⊢
      omega
    have hd := unref_complete_nofree a rest h fuel hc hcl hm hnd hf h2
    refine ⟨decObjs h (a :: rest), hd, ?_, ?_⟩
    · intro x hx o ho
      constructor
      · intro ho1
        exfalso
        have hle := chainMono_head_le rest a h hm x hx
        simp only [rc, hoh, ho] at hle h2
        omega
      · intro _
        exact decObjs_objects_mem h (a :: rest) x o hx ho
    · intro x hx o ho ho1
      exfalso
      have hle := chainMono_head_le rest a h hm x hx
      simp only [rc, hoh, ho] at hle h2
      omega

/-- Witness for C2 at `hC2w`: Reference (count 1) → String (count 1) with a
count-1 backing buffer; both objects and the buffer are freed. -/
theorem C2_unref_frees_zero_counts_witness :
    ∃ h', uacpi_object_unref 2 hC2w (some 1) = some h' ∧
      (∀ x ∈ [1, 2], ∀ o, hC2w.objects x = some o →
         (o.refcount = 1 → h'.objects x = none) ∧
         (2 ≤ o.refcount →
            h'.objects x = some { o with refcount := o.refcount - 1 })) ∧
      (∀ x ∈ [1, 2], ∀ o, hC2w.objects x = some o → o.refcount = 1 →
         ((o.ty = .String ∨ o.ty = .Buffer) →
            ∀ bA, o.buffer = some bA → ∀ b, hC2w.buffers bA = some b →
              uacpi_bugged_shareable_buf b = false →
              h'.buffers bA = (if b.refcount = 1 then none
                               else some { b with refcount := b.refcount - 1 })) ∧
         (o.ty = .Method → ∀ m, o.method = some m → h'.methods m = false)) :=
  C2_unref_frees_zero_counts 1 [2] hC2w 2 (by decide) (by decide) (by decide)
    (by decide) (by decide) (by decide)

/-- Claim C3: unref of an object whose count is 0, or whose chain already
contains a bugged link, frees nothing (the heap's domain, buffers and method
handles are untouched), never decrements a count below zero (a count-0 object
is left at 0), and instead marks every object of the chain bugged. -/
theorem C3_unref_corrupt_quarantines (a : Nat) (rest : List Nat) (h : Heap)
    (fuel : Nat) (hc : chainOk h (a :: rest) = true)
    (hnd : (a :: rest).Nodup)
    (hcor : rc h a = 0 ∨ chainHasBugged h (a :: rest) = true)
    (hf : (a :: rest).length ≤ fuel) :
    ∃ h', uacpi_object_unref fuel h (some a) = some h' ∧
      (∀ x, (h'.objects x).isSome = (h.objects x).isSome) ∧
      h'.buffers = h.buffers ∧ h'.methods = h.methods ∧
      (∀ x ∈ a :: rest, ∃ o', h'.objects x = some o' ∧ o'.bugged = true) ∧
      (∀ x ∈ a :: rest, ∀ o, h.objects x = some o →
         ∃ o', h'.objects x = some o' ∧
           (o'.refcount = o.refcount ∨
              (1 ≤ o.refcount ∧ o'.refcount = o.refcount - 1))) := by
  rcases hsp : walkSpec h (rc h a) (a :: rest) with ⟨k, fl⟩
  have hfl : fl = false := by
    by_contra hfl
    rw [Bool.not_eq_false] at hfl
    obtain ⟨-, -, hcl⟩ := walkSpec_props (a :: rest) h (rc h a) k fl hsp
    obtain ⟨hcl', -⟩ := hcl hfl
    have hex := (chainClean_iff h (a :: rest)).mp hcl'
    rcases hcor with hcor | hcor
    · obtain ⟨o, ho, hb⟩ := hex a (by simp)
      simp only [uacpi_bugged_shareable, Bool.or_eq_false_iff,
        decide_eq_false_iff_not] at hb
      simp only [rc, ho] at hcor
      exact hb.2 hcor
    · simp only [chainHasBugged, List.any_eq_true] at hcor
      obtain ⟨x, hx, hbug⟩ := hcor
      obtain ⟨o, ho, hb⟩ := hex x hx
      simp only [ho] at hbug
      simp only [uacpi_bugged_shareable, Bool.or_eq_false_iff,
        decide_eq_false_iff_not] at hb
      rw [hb.1] at hbug
      exact Bool.false_ne_true hbug
  subst hfl
  obtain ⟨hkle, htake, -⟩ := walkSpec_props (a :: rest) h (rc h a) k false hsp
  have habort := unref_abort a rest h fuel k hc hnd hsp hf
  refine ⟨_, habort, ?_, rfl, rfl, ?_, ?_⟩
  · intro x
    by_cases hx : x ∈ a :: rest
    · have hsub : x ∈ (a :: rest).take k → x ∈ a :: rest :=
        fun hh => List.take_subset _ _ hh
      by_cases hxt : x ∈ (a :: rest).take k <;>
        cases ho : h.objects x <;>
          simp [bugObjs, decObjs, hx, hxt, ho]
    · have hxt : x ∉ (a :: rest).take k :=
        fun hh => hx (List.take_subset _ _ hh)
      simp [bugObjs, decObjs, hx, hxt]
  · intro x hx
    obtain ⟨o, ho⟩ := chainOk_mem_exists h (a :: rest) hc x hx
    by_cases hxt : x ∈ (a :: rest).take k
    · exact ⟨{ o with refcount := o.refcount - 1, bugged := true },
        by simp [bugObjs, decObjs, hx, hxt, ho], rfl⟩
    · exact ⟨{ o with bugged := true },
        by simp [bugObjs, decObjs, hx, hxt, ho], rfl⟩
  · intro x hx o ho
    by_cases hxt : x ∈ (a :: rest).take k
    · obtain ⟨o', ho', hb'⟩ := htake x hxt
      rw [ho] at ho'
      obtain rfl := Option.some.inj ho'
      simp only [uacpi_bugged_shareable, Bool.or_eq_false_iff,
        decide_eq_false_iff_not] at hb'
      exact ⟨{ o with refcount := o.refcount - 1, bugged := true },
        by simp [bugObjs, decObjs, hx, hxt, ho], Or.inr ⟨by omega, rfl⟩⟩
    · exact ⟨{ o with bugged := true },
        by simp [bugObjs, decObjs, hx, hxt, ho], Or.inl rfl⟩

/-- Witness for C3 at `hC3w`: the chain 1 → 2 has a bugged inner link; unref
of 1 keeps both allocated, marks both bugged, and decrements no count below
zero. -/
theorem C3_unref_corrupt_quarantines_witness :
    ∃ h', uacpi_object_unref 2 hC3w (some 1) = some h' ∧
      (∀ x, (h'.objects x).isSome = (hC3w.objects x).isSome) ∧
      h'.buffers = hC3w.buffers ∧ h'.methods = hC3w.methods ∧
      (∀ x ∈ [1, 2], ∃ o', h'.objects x = some o' ∧ o'.bugged = true) ∧
      (∀ x ∈ [1, 2], ∀ o, hC3w.objects x = some o →
         ∃ o', h'.objects x = some o' ∧
           (o'.refcount = o.refcount ∨
              (1 ≤ o.refcount ∧ o'.refcount = o.refcount - 1))) :=
  C3_unref_corrupt_quarantines 1 [2] hC3w 2 (by decide) (by decide)
    (Or.inr (by decide)) (by decide)

/-- Claim C10: calling ref or unref with a NULL object pointer is a no-op:
the heap is returned entirely unchanged (no refcount mutated, nothing marked
bugged, nothing freed). -/
theorem C10_ref_unref_null_noop (fuel : Nat) (h : Heap) :
    uacpi_object_ref fuel h none = some h ∧
    uacpi_object_unref fuel h none = some h := by
  constructor
  · show refLoop fuel fuel h none none = some h
    cases fuel <;> rfl
  · rfl

@[simp]
theorem setNode_nodes (h : NsHeap) (a : Nat) (n : NamespaceNode) (x : Nat) :
    (h.setNode a n).nodes x = if x = a then some n else h.nodes x := rfl

@[simp]
theorem setNode_rootAddr (h : NsHeap) (a : Nat) (n : NamespaceNode) :
    (h.setNode a n).rootAddr = h.rootAddr := rfl

/-- Claim C6: installing node A and then node B carrying the same name under
one parent (the root when the parent pointer is NULL) makes find return B,
the most recently installed node, while A remains allocated but is no longer
the node find returns. -/
theorem resolveParent_setNode (h : NsHeap) (a : Nat) (n : NamespaceNode)
    (parent : Option Nat) :
    resolveParent (h.setNode a n) parent = resolveParent h parent := by
  cases parent <;> rfl

/-- Claim C6 (statement continues in the theorem below). -/
theorem C6_install_shadowing (h : NsHeap) (parent : Option Nat)
    (pA aA bA nm fuel : Nat)
    (hpA : resolveParent h parent = pA)
    (pn an bn : NamespaceNode)
    (hp : h.nodes pA = some pn) (ha : h.nodes aA = some an)
    (hb : h.nodes bA = some bn)
    (han : an.name = nm) (hbn : bn.name = nm)
    (hab : aA ≠ bA) (hap : aA ≠ pA) (hbp : bA ≠ pA) (hfuel : 1 ≤ fuel) :
    ∃ h1 h2, uacpi_node_install h parent aA = some (h1, .Ok) ∧
      uacpi_node_install h1 parent bA = some (h2, .Ok) ∧
      uacpi_namespace_node_find fuel h2 parent nm = some (some bA) ∧
      h2.nodes aA = some { an with parent := some pA, next := pn.child } ∧
      bA ≠ aA := by
  have h1eq : uacpi_node_install h parent aA =
      some (((h.setNode pA { pn with child := some aA }).setNode aA
        { an with parent := some pA, next := pn.child }), .Ok) := by
    simp only [uacpi_node_install, hpA, hp, setNode_nodes, if_neg hap, ha]
  set h1 := (h.setNode pA { pn with child := some aA }).setNode aA
    { an with parent := some pA, next := pn.child } with hh1
  have hpA1 : resolveParent h1 parent = pA := by
    rw [hh1, resolveParent_setNode, resolveParent_setNode]
    exact hpA
  have hp1 : h1.nodes pA = some { pn with child := some aA } := by
    simp [hh1, if_neg (Ne.symm hap), hap]
  have hb1 : h1.nodes bA = some bn := by
    simp [hh1, if_neg (Ne.symm hab), Ne.symm hab, hbp, hb]
  have h2eq : uacpi_node_install h1 parent bA =
      some (((h1.setNode pA { pn with child := some bA }).setNode bA
        { bn with parent := some pA, next := some aA }), .Ok) := by
    simp only [uacpi_node_install, hpA1, hp1, setNode_nodes, if_neg hbp, hb1]
  set h2 := (h1.setNode pA { pn with child := some bA }).setNode bA
    { bn with parent := some pA, next := some aA } with hh2
  have hpA2 : resolveParent h2 parent = pA := by
    rw [hh2, resolveParent_setNode, resolveParent_setNode]
    exact hpA1
  have hp2 : h2.nodes pA = some { pn with child := some bA } := by
    simp [hh2, if_neg (Ne.symm hbp), hbp]
  have hbb2 : h2.nodes bA = some { bn with parent := some pA, next := some aA } := by
    simp [hh2]
  refine ⟨h1, h2, h1eq, h2eq, ?_, ?_, hab.symm⟩
  · cases fuel with
    | zero => omega
    | succ f =>
      simp only [uacpi_namespace_node_find, hpA2, hp2]
      simp [findLoop, hbb2, hbn]
  · simp [hh2, hh1, if_neg hab, hab, Ne.symm hab, hap]

/-- Witness for C6 on `nsW`: install 5 then 6 (both named 77) under the root;
find returns 6 and node 5 stays allocated. -/
theorem C6_install_shadowing_witness :
    ∃ h1 h2, uacpi_node_install nsW none 5 = some (h1, .Ok) ∧
      uacpi_node_install h1 none 6 = some (h2, .Ok) ∧
      uacpi_namespace_node_find 3 h2 none 77 = some (some 6) ∧
      h2.nodes 5 = some { name := 77, parent := some 0, child := none,
                          next := none } ∧
      (6 : Nat) ≠ 5 :=
  C6_install_shadowing nsW none 0 5 6 77 3 (by decide)
    ⟨0, none, none, none⟩ ⟨77, none, none, none⟩ ⟨77, none, none, none⟩
    (by decide) (by decide) (by decide) (by decide) (by decide)
    (by decide) (by decide) (by decide) (by decide)

/-- Claim C7: creating a String/Buffer object whose backing-buffer
sub-allocation fails releases the partially constructed object before
returning nil (nothing of it remains in the heap); on success the object has
refcount 1 and a zero-length backing buffer (itself with refcount 1). -/
theorem C7_create_unwinds_on_failure (h : Heap) (ty : ObjectType) (a : Nat)
    (plan : AllocPlan) (hty : ty = .String ∨ ty = .Buffer) :
    (plan.bufAddr = none →
       ∃ h', uacpi_create_object h ty (some a) plan = some (h', none) ∧
         h'.objects a = none ∧ (∀ x, x ≠ a → h'.objects x = h.objects x) ∧
         h'.buffers = h.buffers ∧ h'.methods = h.methods) ∧
    (∀ bA, plan.bufAddr = some bA →
       ∃ h', uacpi_create_object h ty (some a) plan = some (h', some a) ∧
         h'.objects a = some { refcount := 1, bugged := false, ty := ty,
                               integer := 0, buffer := some bA, method := none,
                               inner_object := none, flags := 0 } ∧
         h'.buffers bA =
           some { refcount := 1, bugged := false, size := 0, data := [] }) := by
  constructor
  · intro hnone
    refine ⟨(h.setObj a { refcount := 1, bugged := false, ty := ty,
                          integer := 0, buffer := none, method := none,
                          inner_object := none, flags := 0 }).delObj a,
      ?_, by simp, fun x hx => by simp [hx], rfl, rfl⟩
    simp only [uacpi_create_object, buffer_alloc, hnone, if_pos hty]
  · intro bA hsome
    refine ⟨((h.setObj a { refcount := 1, bugged := false, ty := ty,
                           integer := 0, buffer := none, method := none,
                           inner_object := none, flags := 0 }).setBuf bA
        { refcount := 1, bugged := false, size := 0, data := [] }).setObj a
        { refcount := 1, bugged := false, ty := ty, integer := 0,
          buffer := some bA, method := none, inner_object := none,
          flags := 0 }, ?_, by simp, by simp⟩
    simp [uacpi_create_object, buffer_alloc, hsome, if_pos hty]

/-- Witness for C7 with a failing buffer calloc (`bufAddr = none`): the
object is fully released and nil is returned. -/
theorem C7_create_unwinds_on_failure_witness :
    ((⟨none, true, []⟩ : AllocPlan).bufAddr = none →
       ∃ h', uacpi_create_object hEmpty .String (some 1) ⟨none, true, []⟩ =
           some (h', none) ∧
         h'.objects 1 = none ∧
         (∀ x, x ≠ 1 → h'.objects x = hEmpty.objects x) ∧
         h'.buffers = hEmpty.buffers ∧ h'.methods = hEmpty.methods) ∧
    (∀ bA, (⟨none, true, []⟩ : AllocPlan).bufAddr = some bA →
       ∃ h', uacpi_create_object hEmpty .String (some 1) ⟨none, true, []⟩ =
           some (h', some 1) ∧
         h'.objects 1 = some { refcount := 1, bugged := false, ty := .String,
                               integer := 0, buffer := some bA, method := none,
                               inner_object := none, flags := 0 } ∧
         h'.buffers bA =
           some { refcount := 1, bugged := false, size := 0, data := [] }) :=
  C7_create_unwinds_on_failure hEmpty .String 1 ⟨none, true, []⟩
    (Or.inl rfl)

theorem decObjsN_zero (h : Heap) (as : List Nat) : decObjsN h as 0 = h := by
  ext x
  · by_cases hx : x ∈ as
    · cases ho : h.objects x <;> simp [decObjsN, hx, ho]
    · simp [decObjsN, hx]
  · rfl
  · rfl

theorem bumpObjsN_zero (h : Heap) (as : List Nat) : bumpObjsN h as 0 = h := by
  ext x
  · by_cases hx : x ∈ as
    · cases ho : h.objects x <;> simp [bumpObjsN, hx, ho]
    · simp [bumpObjsN, hx]
  · rfl
  · rfl

theorem decObjsN_succ (h : Heap) (as : List Nat) (n : Nat) :
    decObjsN (decObjs h as) as n = decObjsN h as (n + 1) := by
  ext x
  · by_cases hx : x ∈ as
    · cases ho : h.objects x with
      | none => simp [decObjsN, decObjs, hx, ho]
      | some o =>
        simp [decObjsN, decObjs, hx, ho, Nat.sub_sub, Nat.add_comm]
    · simp [decObjsN, decObjs, hx]
  · rfl
  · rfl

theorem bumpObjsN_succ (h : Heap) (as : List Nat) (n : Nat) :
    bumpObjsN (bumpObjs h as) as n = bumpObjsN h as (n + 1) := by
  ext x
  · by_cases hx : x ∈ as
    · cases ho : h.objects x with
      | none => simp [bumpObjsN, bumpObjs, hx, ho]
      | some o =>
        have harith : o.refcount + 1 + n = o.refcount + (n + 1) := by omega
        simp [bumpObjsN, bumpObjs, hx, ho, harith]
    · simp [bumpObjsN, bumpObjs, hx]
  · rfl
  · rfl

theorem rc_decObjs_mem (h : Heap) (as : List Nat) (x : Nat) (o : Object)
    (hx : x ∈ as) (ho : h.objects x = some o) :
    rc (decObjs h as) x = o.refcount - 1 := by
  simp [rc, decObjs, hx, ho]

theorem chainClean_bumpObjs_self (h : Heap) (as : List Nat)
    (hcl : chainClean h as = true) : chainClean (bumpObjs h as) as = true := by
  rw [chainClean_iff]
  intro x hx
  obtain ⟨o, ho, hb⟩ := (chainClean_iff h as).mp hcl x hx
  refine ⟨{ o with refcount := o.refcount + 1 }, by simp [bumpObjs, hx, ho], ?_⟩
  simp only [uacpi_bugged_shareable, Bool.or_eq_false_iff,
    decide_eq_false_iff_not] at hb ⊢
  exact ⟨hb.1, by omega⟩

theorem chainClean_decObjs_of_two (h : Heap) (as : List Nat)
    (hcl : chainClean h as = true) (h2 : ∀ x ∈ as, 2 ≤ rc h x) :
    chainClean (decObjs h as) as = true := by
  rw [chainClean_iff]
  intro x hx
  obtain ⟨o, ho, hb⟩ := (chainClean_iff h as).mp hcl x hx
  have := h2 x hx
  simp only [rc, ho] at this
  refine ⟨{ o with refcount := o.refcount - 1 }, by simp [decObjs, hx, ho], ?_⟩
  simp only [uacpi_bugged_shareable, Bool.or_eq_false_iff,
    decide_eq_false_iff_not] at hb ⊢
  exact ⟨hb.1, by omega⟩

theorem mapObjs_objects_notMem (h : Heap) (as : List Nat)
    (f : Object → Object) (x : Nat) (hx : x ∉ as) :
    (mapObjs h as f).objects x = h.objects x := by
  simp [hx]

theorem unrefDstInnerTimes_none (fuel : Nat) (h : Heap) (dstA : Nat)
    (d : Object) (hd : h.objects dstA = some d)
    (hin : d.inner_object = none) :
    ∀ n, unrefDstInnerTimes fuel h dstA n = some h := by
  intro n
  induction n with
  | zero => rfl
  | succ m ih =>
    simp only [unrefDstInnerTimes, hd, hin, uacpi_object_unref]
    exact ih

theorem unrefDstInnerTimes_run (n : Nat) :
    ∀ (h : Heap) (dstA : Nat) (d : Object) (a : Nat) (rest : List Nat)
      (fuel : Nat),
    h.objects dstA = some d → d.inner_object = some a →
    chainOk h (a :: rest) = true → chainClean h (a :: rest) = true →
    chainMono h (a :: rest) = true → (a :: rest).Nodup →
    dstA ∉ a :: rest → n < rc h a → (a :: rest).length ≤ fuel →
    unrefDstInnerTimes fuel h dstA n = some (decObjsN h (a :: rest) n) := by
  induction n with
  | zero =>
    intro h dstA d a rest fuel _ _ _ _ _ _ _ _ _
    rw [decObjsN_zero]
    rfl
  | succ m ih =>
    intro h dstA d a rest fuel hd hdin hc hcl hm hnd hdst hlt hf
    have hall2 : ∀ x ∈ a :: rest, 2 ≤ rc h x := by
      intro x hx
      have h1 := chainMono_head_le rest a h hm x hx
      have h2 : 2 ≤ rc h a :=
        Nat.lt_of_le_of_lt (Nat.succ_le_succ (Nat.zero_le m)) hlt
      exact le_trans h2 h1
    have hstep := unref_complete_nofree a rest h fuel hc hcl hm hnd hf
      (hall2 a (by simp))
    simp only [unrefDstInnerTimes, hd, hdin, hstep]
    have hd2 : (decObjs h (a :: rest)).objects dstA = some d := by
      simp [decObjs, hdst, hd]
    obtain ⟨oa, hoa, hba⟩ := (chainClean_iff h _).mp hcl a (by simp)
    have hc2 : chainOk (decObjs h (a :: rest)) (a :: rest) = true := by
      rw [show chainOk (decObjs h (a :: rest)) (a :: rest) =
          chainOk h (a :: rest) from
        chainOk_mapObjs h _ _ _ (fun _ => rfl) (fun _ => rfl)]
      exact hc
    have hcl2 := chainClean_decObjs_of_two h (a :: rest) hcl hall2
    have hm2 : chainMono (decObjs h (a :: rest)) (a :: rest) = true := by
      refine chainMono_of_map (a :: rest) (· - 1)
        (fun m' n' hmn => Nat.sub_le_sub_right hmn 1) _ h ?_ hm
      intro x hx
      obtain ⟨o, ho, _⟩ := (chainClean_iff h _).mp hcl x hx
      rw [rc_decObjs_mem h _ x o hx ho]
      simp [rc, ho]
    have hlt2 : m < rc (decObjs h (a :: rest)) a := by
      rw [rc_decObjs_mem h _ a oa (by simp) hoa]
      simp only [rc, hoa] at hlt
      omega
    rw [ih (decObjs h (a :: rest)) dstA d a rest fuel hd2 hdin hc2 hcl2 hm2
      hnd hdst hlt2 hf]
    rw [decObjsN_succ]

theorem refDstInnerTimes_run (n : Nat) :
    ∀ (h : Heap) (dstA : Nat) (d : Object) (a : Nat) (rest : List Nat)
      (fuel : Nat),
    h.objects dstA = some d → d.inner_object = some a →
    chainOk h (a :: rest) = true → chainClean h (a :: rest) = true →
    (a :: rest).Nodup → dstA ∉ a :: rest → (a :: rest).length ≤ fuel →
    refDstInnerTimes fuel h dstA n = some (bumpObjsN h (a :: rest) n) := by
  induction n with
  | zero =>
    intro h dstA d a rest fuel _ _ _ _ _ _ _
    rw [bumpObjsN_zero]
    rfl
  | succ m ih =>
    intro h dstA d a rest fuel hd hdin hc hcl hnd hdst hf
    have hstep := uacpi_object_ref_clean a rest h fuel hc hcl hnd hf
    simp only [refDstInnerTimes, hd, hdin, hstep]
    have hd2 : (bumpObjs h (a :: rest)).objects dstA = some d := by
      simp [bumpObjs, hdst, hd]
    have hc2 : chainOk (bumpObjs h (a :: rest)) (a :: rest) = true := by
      rw [show chainOk (bumpObjs h (a :: rest)) (a :: rest) =
          chainOk h (a :: rest) from
        chainOk_mapObjs h _ _ _ (fun _ => rfl) (fun _ => rfl)]
      exact hc
    have hcl2 := chainClean_bumpObjs_self h (a :: rest) hcl
    rw [ih (bumpObjs h (a :: rest)) dstA d a rest fuel hd2 hdin hc2 hcl2
      hnd hdst hf]
    rw [bumpObjsN_succ]

/-- Claim C5: assigning into a Reference-typed dst whose own refcount is n,
from a Reference-typed src whose inner object is T (with dst's previous inner
object old alive beyond the removed references, i.e. n < old.refcount):
after the assignment T's refcount has increased by exactly n, old's refcount
has decreased by exactly n, and dst's inner pointer is T. -/
theorem C5_assign_reference_refcounts (fuel : Nat) (h : Heap)
    (dstA srcA oldA tA : Nat) (behavior : AssignBehavior) (plan : AllocPlan)
    (d s old t : Object)
    (hd : h.objects dstA = some d) (hs : h.objects srcA = some s)
    (hold : h.objects oldA = some old) (ht : h.objects tA = some t)
    (hdty : d.ty = .Reference) (hsty : s.ty = .Reference)
    (hdin : d.inner_object = some oldA) (hsin : s.inner_object = some tA)
    (holdty : old.ty ≠ .Reference) (htty : t.ty ≠ .Reference)
    (holdb : old.bugged = false) (htb : t.bugged = false)
    (htrc : 1 ≤ t.refcount) (hn : d.refcount < old.refcount)
    (hds : dstA ≠ srcA) (hdo : dstA ≠ oldA) (hdt : dstA ≠ tA)
    (hso : srcA ≠ oldA) (hst : srcA ≠ tA) (hot : oldA ≠ tA)
    (hfuel : 1 ≤ fuel) :
    ∃ h', uacpi_object_assign fuel h dstA srcA behavior plan =
        some (h', .Ok) ∧
      h'.objects tA = some { t with refcount := t.refcount + d.refcount } ∧
      h'.objects oldA = some { old with refcount := old.refcount - d.refcount } ∧
      (h'.objects dstA).map Object.inner_object = some (some tA) := by
  have hcold : chainOk h [oldA] = true := by
    simp [chainOk, hold, holdty]
  have hclold : chainClean h [oldA] = true := by
    have : ¬ old.refcount = 0 := by omega
    simp [chainClean, hold, uacpi_bugged_shareable, holdb, this]
  have hrun1 := unrefDstInnerTimes_run d.refcount h dstA d oldA [] fuel hd
    hdin hcold hclold rfl (by simp) (by simp [hdo])
    (by simp only [rc, hold]; exact hn) (by simpa using hfuel)
  have hs1 : (decObjsN h [oldA] d.refcount).objects srcA = some s := by
    simp [decObjsN, hso, hs]
  have hd1 : (decObjsN h [oldA] d.refcount).objects dstA = some d := by
    simp [decObjsN, hdo, hd]
  have hd2 : ((decObjsN h [oldA] d.refcount).setObj dstA
      { d with flags := s.flags, inner_object := s.inner_object }).objects dstA =
      some { d with flags := s.flags, inner_object := s.inner_object } := by
    simp
  have ht2 : ((decObjsN h [oldA] d.refcount).setObj dstA
      { d with flags := s.flags, inner_object := s.inner_object }).objects tA =
      some t := by
    simp [Ne.symm hdt, decObjsN, Ne.symm hot, ht]
  have hct : chainOk ((decObjsN h [oldA] d.refcount).setObj dstA
      { d with flags := s.flags, inner_object := s.inner_object }) [tA] = true := by
    simp only [chainOk, ht2]
    simp [htty]
  have hclt : chainClean ((decObjsN h [oldA] d.refcount).setObj dstA
      { d with flags := s.flags, inner_object := s.inner_object }) [tA] = true := by
    have hne0 : ¬ t.refcount = 0 := by omega
    simp only [chainClean, List.all_cons, List.all_nil, ht2]
    simp [uacpi_bugged_shareable, htb, hne0]
  have hrun2 := refDstInnerTimes_run d.refcount
    ((decObjsN h [oldA] d.refcount).setObj dstA
      { d with flags := s.flags, inner_object := s.inner_object }) dstA
    { d with flags := s.flags, inner_object := s.inner_object } tA [] fuel
    hd2 (by simpa using hsin) hct hclt (by simp) (by simp [hdt])
    (by simpa using hfuel)
  have hd3 : (bumpObjsN ((decObjsN h [oldA] d.refcount).setObj dstA
      { d with flags := s.flags, inner_object := s.inner_object }) [tA]
        d.refcount).objects dstA =
      some { d with flags := s.flags, inner_object := s.inner_object } := by
    simp [bumpObjsN, hdt]
  have hs3 : (bumpObjsN ((decObjsN h [oldA] d.refcount).setObj dstA
      { d with flags := s.flags, inner_object := s.inner_object }) [tA]
        d.refcount).objects srcA = some s := by
    simp [bumpObjsN, hst, Ne.symm hds, decObjsN, hso, hs]
  refine ⟨(bumpObjsN ((decObjsN h [oldA] d.refcount).setObj dstA
      { d with flags := s.flags, inner_object := s.inner_object }) [tA]
        d.refcount).setObj dstA
      { d with flags := s.flags, inner_object := s.inner_object,
               ty := s.ty }, ?_, ?_, ?_, ?_⟩
  · simp only [uacpi_object_assign, hd]
    rw [if_pos hdty]
    simp only [hrun1, hs1]
    rw [hsty]
    simp only [hd1, hrun2, hd3, hs3, eq_self_iff_true, if_true, hsty]
  · simp only [setObj_objects]
    rw [if_neg (Ne.symm hdt)]
    simp only [bumpObjsN, mapObjs_objects]
    rw [if_pos (show tA ∈ [tA] by simp), ht2]
    rfl
  · simp only [setObj_objects]
    rw [if_neg (Ne.symm hdo)]
    simp only [bumpObjsN, mapObjs_objects]
    rw [if_neg (show oldA ∉ [tA] by simp [hot])]
    simp only [setObj_objects]
    rw [if_neg (Ne.symm hdo)]
    simp only [decObjsN, mapObjs_objects]
    rw [if_pos (show oldA ∈ [oldA] by simp), hold]
    rfl
  · simp only [setObj_objects]
    simp [hsin]

/-- Witness for C5 on `hC5w` (n = 3): T's count grows 1 → 4, the previous
inner object's count drops 5 → 2, and dst now points at T. -/
theorem C5_assign_reference_refcounts_witness :
    ∃ h', uacpi_object_assign 1 hC5w 1 2 .ShallowCopy ⟨none, true, []⟩ =
        some (h', .Ok) ∧
      h'.objects 4 = some { objInt 1 with
        refcount := (objInt 1).refcount + (objRef 3 3).refcount } ∧
      h'.objects 3 = some { objInt 5 with
        refcount := (objInt 5).refcount - (objRef 3 3).refcount } ∧
      (h'.objects 1).map Object.inner_object = some (some 4) :=
  C5_assign_reference_refcounts 1 hC5w 1 2 3 4 .ShallowCopy ⟨none, true, []⟩
    (objRef 3 3) (objRef 1 4) (objInt 5) (objInt 1)
    (by decide) (by decide) (by decide) (by decide) (by decide) (by decide)
    (by decide) (by decide) (by decide) (by decide) (by decide) (by decide)
    (by decide) (by decide) (by decide) (by decide) (by decide) (by decide)
    (by decide) (by decide) (by decide)

/-- Claim C9: when src's type tag is outside the supported set (Package),
assign returns Unimplemented and dst's object — in particular its type tag —
is left entirely unchanged.  Step 1 has already run, but it only touches
dst's previous payload (inner chain or backing buffer), never dst itself. -/
theorem C9_assign_unsupported_dst_untouched (fuel : Nat) (h : Heap)
    (dstA srcA : Nat) (behavior : AssignBehavior) (plan : AllocPlan)
    (d s : Object) (hd : h.objects dstA = some d)
    (hs : h.objects srcA = some s) (hsty : s.ty = .Package)
    (hwfref : d.ty = .Reference →
       d.inner_object = none ∨
       ∃ a rest, d.inner_object = some a ∧ chainOk h (a :: rest) = true ∧
         chainClean h (a :: rest) = true ∧ chainMono h (a :: rest) = true ∧
         (a :: rest).Nodup ∧ dstA ∉ a :: rest ∧ srcA ∉ a :: rest ∧
         d.refcount < rc h a ∧ (a :: rest).length ≤ fuel)
    (hwfbuf : (d.ty = .String ∨ d.ty = .Buffer) →
       d.buffer = none ∨ ∃ bA b, d.buffer = some bA ∧ h.buffers bA = some b) :
    ∃ h', uacpi_object_assign fuel h dstA srcA behavior plan =
        some (h', .Unimplemented) ∧ h'.objects dstA = some d := by
  obtain ⟨h1, hstep1, hd1, hs1⟩ :
      ∃ h1, (if d.ty = .Reference then
               unrefDstInnerTimes fuel h dstA d.refcount
             else if d.ty = .String ∨ d.ty = .Buffer then
               uacpi_shareable_unref_and_delete_if_last h d.buffer
             else some h) = some h1 ∧ h1.objects dstA = some d ∧
        h1.objects srcA = some s := by
    by_cases hr : d.ty = .Reference
    · rw [if_pos hr]
      rcases hwfref hr with hin |
        ⟨a, rest, hin, hc, hcl, hm, hnd, hda, hsa, hlt, hfl⟩
      · exact ⟨h, unrefDstInnerTimes_none fuel h dstA d hd hin _, hd, hs⟩
      · refine ⟨decObjsN h (a :: rest) d.refcount,
          unrefDstInnerTimes_run d.refcount h dstA d a rest fuel hd hin hc
            hcl hm hnd hda hlt hfl, ?_, ?_⟩
        · simp [decObjsN, hda, hd]
        · simp [decObjsN, hsa, hs]
    · rw [if_neg hr]
      by_cases hsb : d.ty = .String ∨ d.ty = .Buffer
      · rw [if_pos hsb]
        rcases hwfbuf hsb with hbn | ⟨bA, b, hbA, hb⟩
        · rw [hbn]
          exact ⟨h, rfl, hd, hs⟩
        · rw [hbA]
          simp only [uacpi_shareable_unref_and_delete_if_last, hb]
          by_cases hbug : uacpi_bugged_shareable_buf b = true
          · rw [if_pos hbug]
            exact ⟨h, rfl, hd, hs⟩
          · rw [if_neg hbug]
            by_cases hrc : b.refcount = 1
            · rw [if_pos hrc]
              exact ⟨h.delBuf bA, rfl, hd, hs⟩
            · rw [if_neg hrc]
              exact ⟨h.setBuf bA { b with refcount := b.refcount - 1 }, rfl,
                hd, hs⟩
      · rw [if_neg hsb]
        exact ⟨h, rfl, hd, hs⟩
  refine ⟨h1, ?_, hd1⟩
  simp only [uacpi_object_assign, hd, hstep1, hs1]
  rw [hsty]
  simp

/-- Witness for C9 on `hC9w`: assigning a Package into an Integer dst
returns Unimplemented and dst is untouched. -/
theorem C9_assign_unsupported_dst_untouched_witness :
    ∃ h', uacpi_object_assign 1 hC9w 1 2 .DeepCopy ⟨none, true, []⟩ =
        some (h', .Unimplemented) ∧ h'.objects 1 = some (objInt 2) :=
  C9_assign_unsupported_dst_untouched 1 hC9w 1 2 .DeepCopy ⟨none, true, []⟩
    (objInt 2) (objPack 1) (by decide) (by decide) (by decide)
    (fun hr => absurd hr (by decide)) (fun hsb => by
      rcases hsb with hsb | hsb <;> exact absurd hsb (by decide))

theorem objEvolves_refl (h : Heap) : ObjEvolves h h :=
  fun _ o' hx => ⟨o', hx, rfl, rfl, rfl, rfl, rfl, rfl⟩

theorem objEvolves_trans {h1 h2 h3 : Heap} (hab : ObjEvolves h1 h2)
    (hbc : ObjEvolves h2 h3) : ObjEvolves h1 h3 := by
  intro x o3 hx
  obtain ⟨o2, h2x, t1, t2, t3, t4, t5, t6⟩ := hbc x o3 hx
  obtain ⟨o1, h1x, s1, s2, s3, s4, s5, s6⟩ := hab x o2 h2x
  exact ⟨o1, h1x, t1.trans s1, t2.trans s2, t3.trans s3, t4.trans s4,
    t5.trans s5, t6.trans s6⟩

theorem objEvolves_of_objects_eq {h1 h2 : Heap}
    (he : h2.objects = h1.objects) : ObjEvolves h1 h2 := by
  intro x o' hx
  rw [he] at hx
  exact ⟨o', hx, rfl, rfl, rfl, rfl, rfl, rfl⟩

theorem objEvolves_setObj (h : Heap) (a : Nat) (o o' : Object)
    (ho : h.objects a = some o)
    (hty : o'.ty = o.ty) (hint : o'.integer = o.integer)
    (hbuf : o'.buffer = o.buffer) (hmet : o'.method = o.method)
    (hin : o'.inner_object = o.inner_object) (hfl : o'.flags = o.flags) :
    ObjEvolves h (h.setObj a o') := by
  intro x ox hx
  by_cases hxa : x = a
  · subst hxa
    simp only [setObj_objects, eq_self_iff_true, if_true,
      Option.some.injEq] at hx
    subst hx
    exact ⟨o, ho, hty, hint, hbuf, hmet, hin, hfl⟩
  · simp only [setObj_objects, if_neg hxa] at hx
    exact ⟨ox, hx, rfl, rfl, rfl, rfl, rfl, rfl⟩

theorem objEvolves_delObj (h : Heap) (a : Nat) :
    ObjEvolves h (h.delObj a) := by
  intro x ox hx
  by_cases hxa : x = a
  · subst hxa
    simp at hx
  · simp only [delObj_objects, if_neg hxa] at hx
    exact ⟨ox, hx, rfl, rfl, rfl, rfl, rfl, rfl⟩

theorem bufUnref_objects (h : Heap) (ob : Option Nat) (h1 : Heap)
    (hrun : uacpi_shareable_unref_and_delete_if_last h ob = some h1) :
    h1.objects = h.objects := by
  cases ob with
  | none =>
    obtain rfl := Option.some.inj hrun
    rfl
  | some bA =>
    simp only [uacpi_shareable_unref_and_delete_if_last] at hrun
    cases hb : h.buffers bA with
    | none => simp [hb] at hrun
    | some b =>
      simp only [hb] at hrun
      by_cases hbug : uacpi_bugged_shareable_buf b = true
      · rw [if_pos hbug] at hrun
        obtain rfl := Option.some.inj hrun
        rfl
      · rw [if_neg hbug] at hrun
        by_cases hrc : b.refcount = 1
        · rw [if_pos hrc] at hrun
          obtain rfl := Option.some.inj hrun
          rfl
        · rw [if_neg hrc] at hrun
          obtain rfl := Option.some.inj hrun
          rfl

theorem shareable_ref_clean_eq (o : Object)
    (hb : uacpi_bugged_shareable o = false) :
    uacpi_shareable_ref o = { o with refcount := o.refcount + 1 } := by
  simp [uacpi_shareable_ref, hb]

theorem make_chain_bugged_evolves :
    ∀ (fuel : Nat) (h : Heap) (p : Option Nat) (h' : Heap),
    make_chain_bugged fuel h p = some h' → ObjEvolves h h' := by
  intro fuel
  induction fuel with
  | zero =>
    intro h p h' hrun
    cases p with
    | none =>
      obtain rfl := Option.some.inj hrun
      exact objEvolves_refl h
    | some a => simp [make_chain_bugged] at hrun
  | succ f ih =>
    intro h p h' hrun
    cases p with
    | none =>
      obtain rfl := Option.some.inj hrun
      exact objEvolves_refl h
    | some a =>
      simp only [make_chain_bugged] at hrun
      cases ho : h.objects a with
      | none => simp [ho] at hrun
      | some o =>
        simp only [ho] at hrun
        exact objEvolves_trans
          (objEvolves_setObj h a o (uacpi_make_shareable_bugged o) ho
            rfl rfl rfl rfl rfl rfl)
          (ih _ _ _ hrun)

theorem refLoop_evolves (bfl : Nat) :
    ∀ (fuel : Nat) (h : Heap) (tptr p : Option Nat) (h' : Heap),
    refLoop bfl fuel h tptr p = some h' → ObjEvolves h h' := by
  intro fuel
  induction fuel with
  | zero =>
    intro h tptr p h' hrun
    cases p with
    | none =>
      obtain rfl := Option.some.inj hrun
      exact objEvolves_refl h
    | some a => simp [refLoop] at hrun
  | succ f ih =>
    intro h tptr p h' hrun
    cases p with
    | none =>
      obtain rfl := Option.some.inj hrun
      exact objEvolves_refl h
    | some a =>
      simp only [refLoop] at hrun
      cases ho : h.objects a with
      | none => simp [ho] at hrun
      | some o =>
        simp only [ho] at hrun
        by_cases hb : uacpi_bugged_shareable o = true
        · rw [if_pos (by simp [hb])] at hrun
          exact make_chain_bugged_evolves bfl h tptr h' hrun
        · rw [Bool.not_eq_true] at hb
          rw [if_neg (by simp [hb])] at hrun
          rw [shareable_ref_clean_eq o hb] at hrun
          exact objEvolves_trans
            (objEvolves_setObj h a o { o with refcount := o.refcount + 1 } ho
              rfl rfl rfl rfl rfl rfl)
            (ih _ _ _ _ hrun)

theorem unrefLoop_evolves (bfl : Nat) :
    ∀ (fuel : Nat) (h : Heap) (tptr : Option Nat) (pr : Nat)
      (p : Option Nat) (hp : Heap × Bool),
    unrefLoop bfl fuel h tptr pr p = some hp → ObjEvolves h hp.1 := by
  intro fuel
  induction fuel with
  | zero =>
    intro h tptr pr p hp hrun
    cases p with
    | none =>
      obtain rfl := Option.some.inj hrun
      exact objEvolves_refl h
    | some a => simp [unrefLoop] at hrun
  | succ f ih =>
    intro h tptr pr p hp hrun
    cases p with
    | none =>
      obtain rfl := Option.some.inj hrun
      exact objEvolves_refl h
    | some a =>
      simp only [unrefLoop] at hrun
      cases ho : h.objects a with
      | none => simp [ho] at hrun
      | some o =>
        simp only [ho] at hrun
        by_cases hb : uacpi_bugged_shareable o = true
        · rw [if_pos (by simp [hb])] at hrun
          obtain ⟨hb', hmc, rfl⟩ := Option.map_eq_some'.mp hrun
          exact make_chain_bugged_evolves bfl h tptr hb' hmc
        · rw [Bool.not_eq_true] at hb
          rw [if_neg (by simp [hb])] at hrun
          by_cases hlt : o.refcount < pr
          · rw [if_pos hlt] at hrun
            obtain ⟨hb', hmc, rfl⟩ := Option.map_eq_some'.mp hrun
            exact make_chain_bugged_evolves bfl h tptr hb' hmc
          · rw [if_neg hlt] at hrun
            rw [shareable_unref_eta o hb] at hrun
            exact objEvolves_trans
              (objEvolves_setObj h a o { o with refcount := o.refcount - 1 } ho
                rfl rfl rfl rfl rfl rfl)
              (ih _ _ _ _ _ hrun)

theorem free_object_evolves (h : Heap) (a : Nat) (h' : Heap)
    (hrun : free_object h a = some h') : ObjEvolves h h' := by
  simp only [free_object] at hrun
  cases ho : h.objects a with
  | none => simp [ho] at hrun
  | some o =>
    simp only [ho] at hrun
    cases hbr : (if o.ty = .String ∨ o.ty = .Buffer then
        uacpi_shareable_unref_and_delete_if_last h o.buffer
      else some h) with
    | none => rw [hbr] at hrun; simp at hrun
    | some h1 =>
      rw [hbr] at hrun
      obtain rfl := Option.some.inj hrun
      have hobj : h1.objects = h.objects := by
        by_cases hsb : o.ty = .String ∨ o.ty = .Buffer
        · rw [if_pos hsb] at hbr
          exact bufUnref_objects h o.buffer h1 hbr
        · rw [if_neg hsb] at hbr
          obtain rfl := Option.some.inj hbr
          rfl
      refine objEvolves_trans (objEvolves_of_objects_eq ?_)
        (objEvolves_delObj _ a)
      by_cases hm : o.ty = .Method <;> simp [hm, Heap.freeMethod, hobj] <;>
        cases o.method <;> simp [hobj]

theorem free_chain_evolves :
    ∀ (fuel : Nat) (h : Heap) (p : Option Nat) (h' : Heap),
    free_chain fuel h p = some h' → ObjEvolves h h' := by
  intro fuel
  induction fuel with
  | zero =>
    intro h p h' hrun
    cases p with
    | none =>
      obtain rfl := Option.some.inj hrun
      exact objEvolves_refl h
    | some a => simp [free_chain] at hrun
  | succ f ih =>
    intro h p h' hrun
    cases p with
    | none =>
      obtain rfl := Option.some.inj hrun
      exact objEvolves_refl h
    | some a =>
      simp only [free_chain] at hrun
      cases ho : h.objects a with
      | none => simp [ho] at hrun
      | some o =>
        simp only [ho] at hrun
        cases hfo : (if o.refcount = 0 then free_object h a else some h) with
        | none => rw [hfo] at hrun; simp at hrun
        | some h1 =>
          rw [hfo] at hrun
          have hev1 : ObjEvolves h h1 := by
            by_cases hz : o.refcount = 0
            · rw [if_pos hz] at hfo
              exact free_object_evolves h a h1 hfo
            · rw [if_neg hz] at hfo
              obtain rfl := Option.some.inj hfo
              exact objEvolves_refl h
          exact objEvolves_trans hev1 (ih _ _ _ hrun)

theorem unref_evolves (fuel : Nat) (h : Heap) (p : Option Nat) (h' : Heap)
    (hrun : uacpi_object_unref fuel h p = some h') : ObjEvolves h h' := by
  cases p with
  | none =>
    obtain rfl := Option.some.inj hrun
    exact objEvolves_refl h
  | some a =>
    simp only [uacpi_object_unref] at hrun
    cases ho : h.objects a with
    | none => simp [ho] at hrun
    | some o =>
      simp only [ho] at hrun
      cases hl : unrefLoop fuel fuel h (some a) o.refcount (some a) with
      | none => rw [hl] at hrun; simp at hrun
      | some hp =>
        rcases hp with ⟨h1, flag⟩
        rw [hl] at hrun
        have hev1 : ObjEvolves h h1 :=
          unrefLoop_evolves fuel fuel h (some a) o.refcount (some a)
            (h1, flag) hl
        cases flag with
        | false =>
          obtain rfl := Option.some.inj hrun
          exact hev1
        | true =>
          cases ho1 : h1.objects a with
          | none => simp [ho1] at hrun
          | some o1 =>
            simp only [ho1] at hrun
            by_cases hz : o1.refcount = 0
            · rw [if_pos hz] at hrun
              exact objEvolves_trans hev1 (free_chain_evolves fuel h1 _ h' hrun)
            · rw [if_neg hz] at hrun
              obtain rfl := Option.some.inj hrun
              exact hev1

theorem unrefDstInnerTimes_evolves (fuel : Nat) (dstA : Nat) :
    ∀ (n : Nat) (h : Heap) (h' : Heap),
    unrefDstInnerTimes fuel h dstA n = some h' → ObjEvolves h h' := by
  intro n
  induction n with
  | zero =>
    intro h h' hrun
    obtain rfl := Option.some.inj hrun
    exact objEvolves_refl h
  | succ m ih =>
    intro h h' hrun
    simp only [unrefDstInnerTimes] at hrun
    cases hd : h.objects dstA with
    | none => simp [hd] at hrun
    | some d =>
      simp only [hd] at hrun
      cases hu : uacpi_object_unref fuel h d.inner_object with
      | none => rw [hu] at hrun; simp at hrun
      | some h1 =>
        rw [hu] at hrun
        exact objEvolves_trans (unref_evolves fuel h _ h1 hu) (ih h1 h' hrun)

theorem buffer_alloc_and_store_status (h : Heap) (objA bufSize : Nat)
    (srcBytes : List Nat) (srcSize : Nat) (plan : AllocPlan) (h2 : Heap)
    (st : Status)
    (hrun : buffer_alloc_and_store h objA bufSize srcBytes srcSize plan =
      some (h2, st)) : st = .Ok ∨ st = .OutOfMemory := by
  simp only [buffer_alloc_and_store] at hrun
  cases hba : buffer_alloc h objA bufSize plan with
  | none => simp [hba] at hrun
  | some p =>
    rcases p with ⟨h1, ok⟩
    simp only [hba] at hrun
    cases ok with
    | false =>
      simp only [Option.some.injEq, Prod.mk.injEq] at hrun
      exact Or.inr hrun.2.symm
    | true =>
      cases ho : h1.objects objA with
      | none => simp [ho] at hrun
      | some o =>
        simp only [ho] at hrun
        cases hob : o.buffer with
        | none => simp [hob] at hrun
        | some bA =>
          simp only [hob] at hrun
          cases hb : h1.buffers bA with
          | none => simp [hb] at hrun
          | some b =>
            simp only [hb, Option.some.injEq, Prod.mk.injEq] at hrun
            exact Or.inl hrun.2.symm

theorem assign_buffer_status (h : Heap) (dstA srcA : Nat)
    (behavior : AssignBehavior) (plan : AllocPlan) (h2 : Heap) (st : Status)
    (hrun : assign_buffer h dstA srcA behavior plan = some (h2, st)) :
    st = .Ok ∨ st = .OutOfMemory := by
  simp only [assign_buffer] at hrun
  cases hd : h.objects dstA with
  | none => simp [hd] at hrun
  | some d =>
    cases hs : h.objects srcA with
    | none => simp [hd, hs] at hrun
    | some s =>
      simp only [hd, hs] at hrun
      by_cases hbh : behavior = .ShallowCopy
      · rw [if_pos hbh] at hrun
        cases hsb : s.buffer with
        | none => simp [hsb] at hrun
        | some bA =>
          simp only [hsb] at hrun
          cases hb : h.buffers bA with
          | none => simp [hb] at hrun
          | some b =>
            simp only [hb, Option.some.injEq, Prod.mk.injEq] at hrun
            exact Or.inl hrun.2.symm
      · rw [if_neg hbh] at hrun
        cases hsb : s.buffer with
        | none => simp [hsb] at hrun
        | some sbA =>
          simp only [hsb] at hrun
          cases hb : h.buffers sbA with
          | none => simp [hb] at hrun
          | some sb =>
            simp only [hb] at hrun
            exact buffer_alloc_and_store_status _ _ _ _ _ _ _ _ hrun

theorem step3_status (h2 : Heap) (dstA srcA : Nat) (h' : Heap)
    (st st2 : Status)
    (hrun : (if st2 = Status.Ok then
               (match h2.objects dstA, h2.objects srcA with
                | some d2, some s2 =>
                  some (h2.setObj dstA { d2 with ty := s2.ty }, st2)
                | _, _ => none)
             else some (h2, st2)) = some (h', st)) : st = st2 := by
  by_cases hok : st2 = Status.Ok
  · rw [if_pos hok] at hrun
    cases hd2 : h2.objects dstA <;> cases hs2 : h2.objects srcA <;>
      simp [hd2, hs2] at hrun
    exact hrun.2.symm
  · rw [if_neg hok] at hrun
    simp only [Option.some.injEq, Prod.mk.injEq] at hrun
    exact hrun.2.symm

/-- Claim C4 counterexample: with src a String (a supported type) but the
deep-copy buffer allocation failing, assign returns OutOfMemory — a status
that is neither Ok nor Unimplemented, so the claim's dichotomy is wrong. -/
theorem C4_counterexample :
    (uacpi_object_assign 1 hC4 1 2 .DeepCopy ⟨none, true, []⟩).map Prod.snd =
      some Status.OutOfMemory ∧
    (hC4.objects 2).map Object.ty = some ObjectType.String ∧
    Status.OutOfMemory ≠ Status.Ok ∧
    Status.OutOfMemory ≠ Status.Unimplemented := by
  decide

/-- Claim C4 (amended): assign returns Ok, Unimplemented, or — when the
deep copy of a String/Buffer fails to allocate — OutOfMemory; Unimplemented
is returned exactly when src's type tag is outside the supported set
(here the Package tag); no other failure status is possible. -/
theorem C4_assign_status (fuel : Nat) (h : Heap) (dstA srcA : Nat)
    (behavior : AssignBehavior) (plan : AllocPlan) (s : Object) (h' : Heap)
    (st : Status) (hs : h.objects srcA = some s)
    (hrun : uacpi_object_assign fuel h dstA srcA behavior plan =
      some (h', st)) :
    (st = .Ok ∨ st = .Unimplemented ∨ st = .OutOfMemory) ∧
    (st = .Unimplemented ↔ s.ty = .Package) := by
  simp only [uacpi_object_assign] at hrun
  cases hd : h.objects dstA with
  | none => simp [hd] at hrun
  | some d =>
    simp only [hd] at hrun
    cases hstep1 : (if d.ty = .Reference then
        unrefDstInnerTimes fuel h dstA d.refcount
      else if d.ty = .String ∨ d.ty = .Buffer then
        uacpi_shareable_unref_and_delete_if_last h d.buffer
      else some h) with
    | none => rw [hstep1] at hrun; simp at hrun
    | some h1 =>
      rw [hstep1] at hrun
      have hev : ObjEvolves h h1 := by
        by_cases hr : d.ty = .Reference
        · rw [if_pos hr] at hstep1
          exact unrefDstInnerTimes_evolves fuel dstA d.refcount h h1 hstep1
        · rw [if_neg hr] at hstep1
          by_cases hsb : d.ty = .String ∨ d.ty = .Buffer
          · rw [if_pos hsb] at hstep1
            exact objEvolves_of_objects_eq
              (bufUnref_objects h d.buffer h1 hstep1)
          · rw [if_neg hsb] at hstep1
            obtain rfl := Option.some.inj hstep1
            exact objEvolves_refl h
      cases hs1 : h1.objects srcA with
      | none => simp [hs1] at hrun
      | some s1 =>
        simp only [hs1] at hrun
        obtain ⟨s0, hs0, hty1, -, -, -, -, -⟩ := hev srcA s1 hs1
        rw [hs] at hs0
        obtain rfl := Option.some.inj hs0
        cases hsty1 : s1.ty with
        | Uninitialized =>
          simp only [hsty1] at hrun
          have hst := step3_status h1 dstA srcA h' st .Ok hrun
          subst hst
          rw [hsty1] at hty1
          exact ⟨Or.inl rfl, by simp [← hty1]⟩
        | Debug =>
          simp only [hsty1] at hrun
          have hst := step3_status h1 dstA srcA h' st .Ok hrun
          subst hst
          rw [hsty1] at hty1
          exact ⟨Or.inl rfl, by simp [← hty1]⟩
        | Integer =>
          simp only [hsty1] at hrun
          cases hd1 : h1.objects dstA with
          | none => simp [hd1] at hrun
          | some d1 =>
            simp only [hd1] at hrun
            have hst := step3_status _ dstA srcA h' st .Ok hrun
            subst hst
            rw [hsty1] at hty1
            exact ⟨Or.inl rfl, by simp [← hty1]⟩
        | Method =>
          simp only [hsty1] at hrun
          cases hd1 : h1.objects dstA with
          | none => simp [hd1] at hrun
          | some d1 =>
            simp only [hd1] at hrun
            have hst := step3_status _ dstA srcA h' st .Ok hrun
            subst hst
            rw [hsty1] at hty1
            exact ⟨Or.inl rfl, by simp [← hty1]⟩
        | String =>
          simp only [hsty1] at hrun
          cases hab : assign_buffer h1 dstA srcA behavior plan with
          | none => simp [hab] at hrun
          | some p =>
            rcases p with ⟨h2, st2⟩
            simp only [hab] at hrun
            have hst := step3_status h2 dstA srcA h' st st2 hrun
            subst hst
            rw [hsty1] at hty1
            rcases assign_buffer_status _ _ _ _ _ _ _ hab with h2a | h2a
            · exact ⟨Or.inl h2a, by simp [h2a, ← hty1]⟩
            · exact ⟨Or.inr (Or.inr h2a), by simp [h2a, ← hty1]⟩
        | Buffer =>
          simp only [hsty1] at hrun
          cases hab : assign_buffer h1 dstA srcA behavior plan with
          | none => simp [hab] at hrun
          | some p =>
            rcases p with ⟨h2, st2⟩
            simp only [hab] at hrun
            have hst := step3_status h2 dstA srcA h' st st2 hrun
            subst hst
            rw [hsty1] at hty1
            rcases assign_buffer_status _ _ _ _ _ _ _ hab with h2a | h2a
            · exact ⟨Or.inl h2a, by simp [h2a, ← hty1]⟩
            · exact ⟨Or.inr (Or.inr h2a), by simp [h2a, ← hty1]⟩
        | Reference =>
          simp only [hsty1] at hrun
          cases hd1 : h1.objects dstA with
          | none => simp [hd1] at hrun
          | some d1 =>
            simp only [hd1] at hrun
            cases hrt : refDstInnerTimes fuel (h1.setObj dstA
                { d1 with flags := s1.flags,
                          inner_object := s1.inner_object }) dstA
                d1.refcount with
            | none => rw [hrt] at hrun; simp at hrun
            | some h3 =>
              rw [hrt] at hrun
              have hst := step3_status h3 dstA srcA h' st .Ok hrun
              subst hst
              rw [hsty1] at hty1
              exact ⟨Or.inl rfl, by simp [← hty1]⟩
        | Package =>
          simp only [hsty1] at hrun
          have hst := step3_status h1 dstA srcA h' st .Unimplemented hrun
          subst hst
          rw [hsty1] at hty1
          exact ⟨Or.inr (Or.inl rfl), by simp [← hty1]⟩

/-- Releasing a buffer handle succeeds whenever the buffer exists, touches
no object, and changes no buffer cell other than the released one. -/
theorem bufUnref_run (h : Heap) (bA : Nat) (db : Buffer)
    (hdbl : h.buffers bA = some db) :
    ∃ h1, uacpi_shareable_unref_and_delete_if_last h (some bA) = some h1 ∧
      h1.objects = h.objects ∧
      ∀ x, x ≠ bA → h1.buffers x = h.buffers x := by
  by_cases hbug : uacpi_bugged_shareable_buf db = true
  · refine ⟨h, ?_, rfl, fun x _ => rfl⟩
    simp only [uacpi_shareable_unref_and_delete_if_last, hdbl]
    rw [if_pos hbug]
  · by_cases h1c : db.refcount = 1
    · refine ⟨h.delBuf bA, ?_, rfl, fun x hx => by simp [hx]⟩
      simp only [uacpi_shareable_unref_and_delete_if_last, hdbl]
      rw [if_neg hbug, if_pos h1c]
    · refine ⟨h.setBuf bA { db with refcount := db.refcount - 1 }, ?_, rfl,
        fun x hx => by simp [hx]⟩
      simp only [uacpi_shareable_unref_and_delete_if_last, hdbl]
      rw [if_neg hbug, if_neg h1c]

/-- ShallowCopy in assign_buffer: dst is repointed at src's buffer and
that buffer's refcount is bumped via the shareable header. -/
theorem assign_buffer_shallow (h : Heap) (dstA srcA sbA : Nat) (d s : Object)
    (sb : Buffer) (plan : AllocPlan) (hd : h.objects dstA = some d)
    (hs : h.objects srcA = some s) (hsb : s.buffer = some sbA)
    (hsbl : h.buffers sbA = some sb)
    (hok : uacpi_bugged_shareable_buf sb = false) :
    assign_buffer h dstA srcA .ShallowCopy plan =
      some ((h.setObj dstA { d with buffer := some sbA }).setBuf sbA
        { sb with refcount := sb.refcount + 1 }, .Ok) := by
  simp [assign_buffer, hd, hs, hsb, hsbl, uacpi_shareable_ref_buf, hok]

/-- DeepCopy in assign_buffer: with a successful allocation plan, dst gets
a fresh buffer of src's size holding src's bytes; everything else is
untouched. -/
theorem assign_buffer_deep (h : Heap) (dstA srcA sbA nbA : Nat) (d s : Object)
    (sb : Buffer) (plan : AllocPlan) (hd : h.objects dstA = some d)
    (hs : h.objects srcA = some s) (hsb : s.buffer = some sbA)
    (hsbl : h.buffers sbA = some sb) (hnb : plan.bufAddr = some nbA)
    (hdok : plan.dataOk = true) (hlen : sb.data.length = sb.size) :
    ∃ h2, assign_buffer h dstA srcA .DeepCopy plan = some (h2, .Ok) ∧
      h2.objects dstA = some { d with buffer := some nbA } ∧
      (∀ x, x ≠ dstA → h2.objects x = h.objects x) ∧
      h2.buffers nbA = some ⟨1, false, sb.size, sb.data⟩ ∧
      (∀ x, x ≠ nbA → h2.buffers x = h.buffers x) := by
  have hmem : uacpi_memcpy_zerout sb.data sb.size sb.size = sb.data := by
    simp only [uacpi_memcpy_zerout, Nat.min_self, Nat.sub_self,
      List.replicate_zero, List.append_nil]
    rw [← hlen, List.take_length]
  by_cases hsz : sb.size = 0
  · have hdata : sb.data = [] := by
      rw [hsz] at hlen
      exact List.length_eq_zero.mp hlen
    refine ⟨((h.setBuf nbA ⟨1, false, 0, []⟩).setObj dstA
        { d with buffer := some nbA }).setBuf nbA
        { (⟨1, false, 0, []⟩ : Buffer) with
            data := uacpi_memcpy_zerout sb.data sb.size sb.size },
      ?_, ?_, ?_, ?_, ?_⟩
    · simp [assign_buffer, hd, hs, hsb, hsbl, buffer_alloc_and_store,
        buffer_alloc, hnb, hsz]
    · simp
    · intro x hx
      simp [hx]
    · simp [uacpi_memcpy_zerout, hsz, hdata]
    · intro x hx
      simp [hx]
  · refine ⟨(((h.setBuf nbA ⟨1, false, 0, []⟩).setBuf nbA
        ⟨1, false, sb.size, plan.junk.take sb.size ++
          List.replicate (sb.size - plan.junk.length) 0⟩).setObj dstA
        { d with buffer := some nbA }).setBuf nbA
        { (⟨1, false, sb.size, plan.junk.take sb.size ++
            List.replicate (sb.size - plan.junk.length) 0⟩ : Buffer) with
            data := uacpi_memcpy_zerout sb.data sb.size sb.size },
      ?_, ?_, ?_, ?_, ?_⟩
    · simp [assign_buffer, hd, hs, hsb, hsbl, buffer_alloc_and_store,
        buffer_alloc, hnb, hsz, hdok]
    · simp
    · intro x hx
      simp [hx]
    · simp [hmem]
    · intro x hx
      simp [hx]

/-- Claim C8 counterexample: when dst and src already share the same
backing buffer, a ShallowCopy assign leaves that buffer's refcount
unchanged (the release of dst's reference cancels the new one), so the
buffer's count is NOT incremented by exactly 1. -/
theorem C8_counterexample :
    ((uacpi_object_assign 1 hC8 1 2 .ShallowCopy ⟨none, true, []⟩).map
      fun p => (p.1.buffers 10).map Buffer.refcount) = some (some 2) ∧
    (hC8.buffers 10).map Buffer.refcount = some 2 ∧
    (hC8.objects 1).bind Object.buffer = some 10 ∧
    (hC8.objects 2).bind Object.buffer = some 10 ∧
    (hC8.objects 2).map Object.ty = some ObjectType.String := by
  decide

/-- Claim C8 (amended): for an assign between String/Buffer objects that do
not alias each other's storage (distinct objects, distinct backing
buffers), with a live src buffer whose byte list matches its size:
ShallowCopy repoints dst at src's buffer and bumps that buffer's refcount
by exactly 1; DeepCopy with a successful allocation plan gives dst a fresh
refcount-1 buffer of exactly src's size holding src's bytes, leaving src's
buffer untouched. -/
theorem C8_assign_buffer_semantics (fuel : Nat) (h : Heap)
    (dstA srcA dbA sbA : Nat) (d s : Object) (db sb : Buffer)
    (plan : AllocPlan) (behavior : AssignBehavior)
    (hd : h.objects dstA = some d) (hs : h.objects srcA = some s)
    (hne : dstA ≠ srcA)
    (hdty : d.ty = ObjectType.String ∨ d.ty = ObjectType.Buffer)
    (hsty : s.ty = ObjectType.String ∨ s.ty = ObjectType.Buffer)
    (hdb : d.buffer = some dbA) (hsb : s.buffer = some sbA)
    (hba : dbA ≠ sbA)
    (hdbl : h.buffers dbA = some db) (hsbl : h.buffers sbA = some sb)
    (hsbok : uacpi_bugged_shareable_buf sb = false)
    (hlen : sb.data.length = sb.size)
    (hplan : behavior = .DeepCopy →
      ∃ nbA, plan.bufAddr = some nbA ∧ nbA ≠ sbA ∧ plan.dataOk = true) :
    ∃ h', uacpi_object_assign fuel h dstA srcA behavior plan =
        some (h', .Ok) ∧
      (behavior = .ShallowCopy →
        (h'.objects dstA).map Object.buffer = some (some sbA) ∧
        h'.buffers sbA = some { sb with refcount := sb.refcount + 1 }) ∧
      (∀ nbA, behavior = .DeepCopy → plan.bufAddr = some nbA →
        (h'.objects dstA).map Object.buffer = some (some nbA) ∧
        h'.buffers nbA = some ⟨1, false, sb.size, sb.data⟩ ∧
        h'.buffers sbA = some sb) := by
  have hnr : d.ty ≠ ObjectType.Reference := by
    rcases hdty with h9 | h9 <;> simp [h9]
  obtain ⟨h1, hrun1, hobj1, hbufs1⟩ := bufUnref_run h dbA db hdbl
  have hd1 : h1.objects dstA = some d := by rw [hobj1]; exact hd
  have hs1 : h1.objects srcA = some s := by rw [hobj1]; exact hs
  have hsb1 : h1.buffers sbA = some sb := by
    rw [hbufs1 sbA (Ne.symm hba)]
    exact hsbl
  cases behavior with
  | ShallowCopy =>
    have hab := assign_buffer_shallow h1 dstA srcA sbA d s sb plan hd1 hs1
      hsb hsb1 hsbok
    refine ⟨((h1.setObj dstA { d with buffer := some sbA }).setBuf sbA
        { sb with refcount := sb.refcount + 1 }).setObj dstA
        { d with buffer := some sbA, ty := s.ty }, ?_, ?_, ?_⟩
    · simp only [uacpi_object_assign, hd, if_neg hnr, if_pos hdty, hdb,
        hrun1]
      rcases hsty with hsty9 | hsty9 <;>
        simp only [hs1, hsty9, hab] <;>
        simp [Ne.symm hne, hs1, hsty9]
    · intro _
      exact ⟨by simp, by simp⟩
    · intro nbA hco _
      exact absurd hco (by decide)
  | DeepCopy =>
    obtain ⟨nbA, hnba, hnbs, hdok⟩ := hplan rfl
    obtain ⟨h2, hab, h2d, h2o, h2n, h2b⟩ :=
      assign_buffer_deep h1 dstA srcA sbA nbA d s sb plan hd1 hs1 hsb hsb1
        hnba hdok hlen
    refine ⟨h2.setObj dstA { d with buffer := some nbA, ty := s.ty },
      ?_, ?_, ?_⟩
    · simp only [uacpi_object_assign, hd, if_neg hnr, if_pos hdty, hdb,
        hrun1]
      rcases hsty with hsty9 | hsty9 <;>
        simp only [hs1, hsty9, hab] <;>
        simp [h2d, h2o srcA (Ne.symm hne), hs1, hsty9]
    · intro hco
      exact absurd hco (by decide)
    · intro nbA2 _ hnb2
      have hsame : nbA2 = nbA := by
        rw [hnba] at hnb2
        exact (Option.some.inj hnb2).symm
      subst hsame
      refine ⟨by simp, ?_, ?_⟩
      · simpa using h2n
      · have hfr := h2b sbA (Ne.symm hnbs)
        simp only [setObj_buffers]
        rw [hfr, hsb1]

/-- Witness for C8: a ShallowCopy between two non-aliased Strings repoints
dst at src's buffer 10 and bumps that buffer's refcount from 1 to 2. -/
theorem C8_assign_buffer_semantics_witness :
    ∃ h', uacpi_object_assign 1 hC8w 1 2 .ShallowCopy ⟨none, true, []⟩ =
        some (h', .Ok) ∧
      (AssignBehavior.ShallowCopy = .ShallowCopy →
        (h'.objects 1).map Object.buffer = some (some 10) ∧
        h'.buffers 10 = some { (⟨1, false, 2, [7, 8]⟩ : Buffer) with
          refcount := 1 + 1 }) ∧
      (∀ nbA, AssignBehavior.ShallowCopy = .DeepCopy →
        (⟨none, true, []⟩ : AllocPlan).bufAddr = some nbA →
        (h'.objects 1).map Object.buffer = some (some nbA) ∧
        h'.buffers nbA = some ⟨1, false, 2, [7, 8]⟩ ∧
        h'.buffers 10 = some ⟨1, false, 2, [7, 8]⟩) :=
  C8_assign_buffer_semantics 1 hC8w 1 2 20 10 (objStr 1 20) (objStr 1 10)
    ⟨1, false, 0, []⟩ ⟨1, false, 2, [7, 8]⟩ ⟨none, true, []⟩ .ShallowCopy
    rfl rfl (by decide) (Or.inl rfl) (Or.inl rfl) rfl rfl (by decide)
    rfl rfl rfl rfl (fun hco => absurd hco (by decide))

/-- Witness for C4: assigning a Package src onto an Integer dst returns
Unimplemented, which the theorem classifies correctly. -/
theorem C4_assign_status_witness :
    (Status.Unimplemented = Status.Ok ∨
     Status.Unimplemented = Status.Unimplemented ∨
     Status.Unimplemented = Status.OutOfMemory) ∧
    (Status.Unimplemented = Status.Unimplemented ↔
      (objPack 1).ty = ObjectType.Package) :=
  C4_assign_status 1 hC4w 1 2 .ShallowCopy ⟨none, true, []⟩ (objPack 1)
    ((uacpi_object_assign 1 hC4w 1 2 .ShallowCopy ⟨none, true, []⟩).getD
      (hEmpty, .Ok)).1 .Unimplemented rfl rfl

end UAcpi
